import Mathlib

/-!
Verification of the Twinominoes puzzle generation-and-solving engine
(`backend/generate_puzzle.py` and `backend/main.py`).

Modelling conventions:
* a grid cell is a pair of integers `(x, y)`;
* a Python cell tuple-of-tuples (always lexicographically sorted and
  duplicate-free in the program) is modelled as a `Finset (ℤ × ℤ)`, the
  canonical set it denotes; iteration order over a piece's cells, where the
  source iterates a sorted tuple, is recovered by `sortCells`;
* Python `random` calls (`choice`, `randint`, `shuffle`, `sample`) are
  abstracted as explicit oracle parameters supplying the values tried, in
  the order the program would try them; every validity check performed on
  an oracle-supplied value is translated exactly from the source.
-/

namespace Twin

abbrev Cell := ℤ × ℤ

abbrev Shape := Finset Cell

/-- Lexicographic order on cells, matching Python tuple comparison. -/
def cellLe (a b : Cell) : Prop :=
  a.1 < b.1 ∨ (a.1 = b.1 ∧ a.2 ≤ b.2)

instance cellLe.decRel : DecidableRel cellLe := by
  intro a b; unfold cellLe; infer_instance

theorem cellLe_total (a b : Cell) : cellLe a b ∨ cellLe b a := by
  rcases a with ⟨x1, y1⟩; rcases b with ⟨x2, y2⟩
  simp only [cellLe]
  omega

theorem cellLe_antisymm {a b : Cell} (h1 : cellLe a b) (h2 : cellLe b a) : a = b := by
  rcases a with ⟨x1, y1⟩; rcases b with ⟨x2, y2⟩
  simp only [cellLe] at h1 h2
  simp only [Prod.mk.injEq]
  omega

theorem cellLe_trans {a b c : Cell} (h1 : cellLe a b) (h2 : cellLe b c) : cellLe a c := by
  rcases a with ⟨x1, y1⟩; rcases b with ⟨x2, y2⟩; rcases c with ⟨x3, y3⟩
  simp only [cellLe] at h1 h2 ⊢
  omega

/-- Insertion into a lexicographically sorted list of cells. -/
def insertCell (c : Cell) : List Cell → List Cell
  | [] => [c]
  | d :: ds => if cellLe c d then c :: d :: ds else d :: insertCell c ds

theorem insertCell_comm (a b : Cell) (l : List Cell) :
    insertCell a (insertCell b l) = insertCell b (insertCell a l) := by
  induction l with
  | nil =>
    simp only [insertCell]
    rcases cellLe_total a b with h | h
    · by_cases h' : cellLe b a
      · cases cellLe_antisymm h h'; simp
      · simp [insertCell, h, h']
    · by_cases h' : cellLe a b
      · cases cellLe_antisymm h h'; simp
      · simp [insertCell, h, h']
  | cons d ds ih =>
    by_cases hbd : cellLe b d
    · by_cases had : cellLe a d
      · rcases cellLe_total a b with h | h
        · by_cases h' : cellLe b a
          · cases cellLe_antisymm h h'; simp
          · simp [insertCell, h, h', hbd, had]
        · by_cases h' : cellLe a b
          · cases cellLe_antisymm h' h; simp
          · simp [insertCell, h, h', hbd, had]
      · have hab : cellLe b a := by
          rcases cellLe_total a b with h | h
          · exact absurd (cellLe_trans h hbd) had
          · exact h
        have hna : ¬ cellLe a b := fun h => had (cellLe_trans h hbd)
        simp [insertCell, hbd, had, hab, hna]
    · by_cases had : cellLe a d
      · have hba : ¬ cellLe b a := fun h => hbd (cellLe_trans h had)
        have hab : cellLe a b := by
          rcases cellLe_total a b with h | h
          · exact h
          · exact absurd (cellLe_trans h had) hbd
        simp [insertCell, hbd, had, hab, hba]
      · simp [insertCell, hbd, had, ih]

instance insertCell.leftComm : LeftCommutative insertCell :=
  ⟨insertCell_comm⟩

/-- The cells of a piece listed in increasing lexicographic order: the list
denoted by the sorted Python tuple representing the piece. -/
def sortCells (s : Shape) : List Cell :=
  Multiset.foldr insertCell [] s.val

theorem mem_insertCell {x c : Cell} {l : List Cell} :
    x ∈ insertCell c l ↔ x = c ∨ x ∈ l := by
  induction l with
  | nil => simp [insertCell]
  | cons d ds ih =>
    by_cases h : cellLe c d
    · simp [insertCell, h]
    · simp only [insertCell, if_neg h, List.mem_cons, ih]
      tauto

theorem mem_foldr_insertCell {x : Cell} (m : Multiset Cell) :
    x ∈ Multiset.foldr insertCell [] m ↔ x ∈ m := by
  induction m using Multiset.induction_on with
  | empty => simp
  | cons a t ih =>
    rw [Multiset.foldr_cons, mem_insertCell, Multiset.mem_cons, ih]

theorem mem_sortCells {x : Cell} {s : Shape} : x ∈ sortCells s ↔ x ∈ s := by
  rw [sortCells, mem_foldr_insertCell]
  exact Iff.rfl

/-- List of the integers `0, 1, ..., n-1`; the range a Python
`for t in range(n)` loop iterates over (empty when `n ≤ 0`). -/
def intRange (n : ℤ) : List ℤ :=
  (List.range n.toNat).map Int.ofNat

theorem mem_intRange {x n : ℤ} : x ∈ intRange n ↔ 0 ≤ x ∧ x < n := by
  unfold intRange
  rw [List.mem_map]
  constructor
  · rintro ⟨k, hk, rfl⟩
    rw [List.mem_range] at hk
    rw [Int.ofNat_eq_natCast]
    omega
  · rintro ⟨h0, hn⟩
    refine ⟨x.toNat, ?_, ?_⟩
    · rw [List.mem_range]; omega
    · rw [Int.ofNat_eq_natCast]; omega

/-- Least x-coordinate of a piece (`min(xs)` in `normalize`); `0` for the
empty piece, on which the Python code never calls it. -/
def minX (s : Shape) : ℤ :=
  if h : s.Nonempty then (s.image Prod.fst).min' (h.image _) else 0

/-- Least y-coordinate of a piece (`min(ys)` in `normalize`). -/
def minY (s : Shape) : ℤ :=
  if h : s.Nonempty then (s.image Prod.snd).min' (h.image _) else 0

/-- Greatest x-coordinate of a piece (`max(x for x,y in ...)`). -/
def maxX (s : Shape) : ℤ :=
  if h : s.Nonempty then (s.image Prod.fst).max' (h.image _) else 0

/-- Greatest y-coordinate of a piece. -/
def maxY (s : Shape) : ℤ :=
  if h : s.Nonempty then (s.image Prod.snd).max' (h.image _) else 0

/-- `normalize(cells)` from `generate_puzzle.py`: shift so the least x- and
y-coordinates become 0 (the sort in the source only fixes a canonical tuple
order for the same cell set). -/
def normalize (s : Shape) : Shape :=
  s.image (fun c => (c.1 - minX s, c.2 - minY s))

/-- `translate(shape, tx, ty)`. -/
def translate (s : Shape) (tx ty : ℤ) : Shape :=
  s.image (fun c => (c.1 + tx, c.2 + ty))

/-- `inside(grid_w, grid_h, cells)`. -/
def inside (grid_w grid_h : ℤ) (cells : Shape) : Prop :=
  ∀ c ∈ cells, 0 ≤ c.1 ∧ c.1 < grid_w ∧ 0 ≤ c.2 ∧ c.2 < grid_h

instance inside.dec (grid_w grid_h : ℤ) (cells : Shape) :
    Decidable (inside grid_w grid_h cells) := by
  unfold inside; infer_instance

/-- `orthogonal_neighbors(cell)`. -/
def orthogonal_neighbors (cell : Cell) : List Cell :=
  [(cell.1 - 1, cell.2), (cell.1 + 1, cell.2), (cell.1, cell.2 - 1), (cell.1, cell.2 + 1)]

/-- `corner_neighbors(cell)`. -/
def corner_neighbors (cell : Cell) : List Cell :=
  [(cell.1 - 1, cell.2 - 1), (cell.1 - 1, cell.2 + 1),
   (cell.1 + 1, cell.2 - 1), (cell.1 + 1, cell.2 + 1)]

/-- One step of the quarter-turn loop `rx, ry = -ry, rx`, applied `rot`
times. -/
def rotateCell : ℕ → Cell → Cell
  | 0, c => c
  | n + 1, c => rotateCell n (-c.2, c.1)

/-- The cell transform of `rotations_and_reflections` / `shapes_match`:
optional flips of each axis followed by `rot` quarter turns. -/
def transformCell (fx fy : Bool) (rot : ℕ) (c : Cell) : Cell :=
  rotateCell rot (if fx then -c.1 else c.1, if fy then -c.2 else c.2)

/-- `rotations_and_reflections(shape)`: the distinct normalized images of the
shape under the 16 (flip, flip, rotation) parameter combinations.  The
source stores them in a Python `set` whose iteration order is unspecified;
the list order here is one such order. -/
def rotations_and_reflections (s : Shape) : List Shape :=
  (([false, true].flatMap fun fx =>
    [false, true].flatMap fun fy =>
      (List.range 4).map fun rot =>
        normalize (s.image (transformCell fx fy rot)))).dedup

/-- `PRESET_SHAPES`: the fixed catalog of the five preset polyomino kinds. -/
def PRESET_SHAPES : List (String × Shape) :=
  [("monomino", normalize {((0 : ℤ), (0 : ℤ))}),
   ("domino", normalize {((0 : ℤ), (0 : ℤ)), (1, 0)}),
   ("tromino_I", normalize {((0 : ℤ), (0 : ℤ)), (1, 0), (2, 0)}),
   ("tromino_L", normalize {((0 : ℤ), (0 : ℤ)), (0, 1), (1, 0)}),
   ("tetromino_O", normalize {((0 : ℤ), (0 : ℤ)), (1, 0), (0, 1), (1, 1)})]

/-- `SHAPE_VARIANTS[name]` (the catalog is a dict comprehension over
`PRESET_SHAPES`; lookups are only ever made at the five preset names). -/
def SHAPE_VARIANTS (name : String) : List Shape :=
  rotations_and_reflections ((PRESET_SHAPES.lookup name).getD ∅)


theorem minX_le_of_mem {s : Shape} {c : Cell} (hc : c ∈ s) : minX s ≤ c.1 := by
  rw [minX, dif_pos ⟨c, hc⟩]
  exact Finset.min'_le _ _ (Finset.mem_image_of_mem _ hc)

theorem minY_le_of_mem {s : Shape} {c : Cell} (hc : c ∈ s) : minY s ≤ c.2 := by
  rw [minY, dif_pos ⟨c, hc⟩]
  exact Finset.min'_le _ _ (Finset.mem_image_of_mem _ hc)

theorem le_maxX_of_mem {s : Shape} {c : Cell} (hc : c ∈ s) : c.1 ≤ maxX s := by
  rw [maxX, dif_pos ⟨c, hc⟩]
  exact Finset.le_max' _ _ (Finset.mem_image_of_mem _ hc)

theorem le_maxY_of_mem {s : Shape} {c : Cell} (hc : c ∈ s) : c.2 ≤ maxY s := by
  rw [maxY, dif_pos ⟨c, hc⟩]
  exact Finset.le_max' _ _ (Finset.mem_image_of_mem _ hc)

theorem mem_translate {s : Shape} {tx ty : ℤ} {d : Cell} :
    d ∈ translate s tx ty ↔ ∃ c ∈ s, d = (c.1 + tx, c.2 + ty) := by
  unfold translate
  rw [Finset.mem_image]
  constructor
  · rintro ⟨c, hc, rfl⟩; exact ⟨c, hc, rfl⟩
  · rintro ⟨c, hc, rfl⟩; exact ⟨c, hc, rfl⟩

theorem translate_nonempty {s : Shape} {tx ty : ℤ} :
    (translate s tx ty).Nonempty ↔ s.Nonempty := by
  unfold translate
  exact Finset.image_nonempty

theorem translate_empty (tx ty : ℤ) : translate (∅ : Shape) tx ty = ∅ := rfl

theorem minX_translate {s : Shape} (tx ty : ℤ) (h : s.Nonempty) :
    minX (translate s tx ty) = minX s + tx := by
  have ht : (translate s tx ty).Nonempty := translate_nonempty.mpr h
  rw [minX, minX, dif_pos ht, dif_pos h]
  have h1 : (translate s tx ty).image Prod.fst = (s.image Prod.fst).image (fun x => x + tx) := by
    unfold translate
    rw [Finset.image_image, Finset.image_image]
    rfl
  have hmono : Monotone (fun x : ℤ => x + tx) := fun a b hab => add_le_add_right hab tx
  calc ((translate s tx ty).image Prod.fst).min' (ht.image _)
      = ((s.image Prod.fst).image (fun x => x + tx)).min' (by rw [← h1]; exact ht.image _) := by
        congr 1
    _ = (s.image Prod.fst).min' ((h.image _)) + tx := by
        rw [Finset.min'_image hmono]

theorem minY_translate {s : Shape} (tx ty : ℤ) (h : s.Nonempty) :
    minY (translate s tx ty) = minY s + ty := by
  have ht : (translate s tx ty).Nonempty := translate_nonempty.mpr h
  rw [minY, minY, dif_pos ht, dif_pos h]
  have h1 : (translate s tx ty).image Prod.snd = (s.image Prod.snd).image (fun y => y + ty) := by
    unfold translate
    rw [Finset.image_image, Finset.image_image]
    rfl
  have hmono : Monotone (fun y : ℤ => y + ty) := fun a b hab => add_le_add_right hab ty
  calc ((translate s tx ty).image Prod.snd).min' (ht.image _)
      = ((s.image Prod.snd).image (fun y => y + ty)).min' (by rw [← h1]; exact ht.image _) := by
        congr 1
    _ = (s.image Prod.snd).min' ((h.image _)) + ty := by
        rw [Finset.min'_image hmono]

theorem maxX_translate {s : Shape} (tx ty : ℤ) (h : s.Nonempty) :
    maxX (translate s tx ty) = maxX s + tx := by
  have ht : (translate s tx ty).Nonempty := translate_nonempty.mpr h
  rw [maxX, maxX, dif_pos ht, dif_pos h]
  have h1 : (translate s tx ty).image Prod.fst = (s.image Prod.fst).image (fun x => x + tx) := by
    unfold translate
    rw [Finset.image_image, Finset.image_image]
    rfl
  have hmono : Monotone (fun x : ℤ => x + tx) := fun a b hab => add_le_add_right hab tx
  calc ((translate s tx ty).image Prod.fst).max' (ht.image _)
      = ((s.image Prod.fst).image (fun x => x + tx)).max' (by rw [← h1]; exact ht.image _) := by
        congr 1
    _ = (s.image Prod.fst).max' ((h.image _)) + tx := by
        rw [Finset.max'_image hmono]

theorem maxY_translate {s : Shape} (tx ty : ℤ) (h : s.Nonempty) :
    maxY (translate s tx ty) = maxY s + ty := by
  have ht : (translate s tx ty).Nonempty := translate_nonempty.mpr h
  rw [maxY, maxY, dif_pos ht, dif_pos h]
  have h1 : (translate s tx ty).image Prod.snd = (s.image Prod.snd).image (fun y => y + ty) := by
    unfold translate
    rw [Finset.image_image, Finset.image_image]
    rfl
  have hmono : Monotone (fun y : ℤ => y + ty) := fun a b hab => add_le_add_right hab ty
  calc ((translate s tx ty).image Prod.snd).max' (ht.image _)
      = ((s.image Prod.snd).image (fun y => y + ty)).max' (by rw [← h1]; exact ht.image _) := by
        congr 1
    _ = (s.image Prod.snd).max' ((h.image _)) + ty := by
        rw [Finset.max'_image hmono]

theorem translate_translate (s : Shape) (a b c d : ℤ) :
    translate (translate s a b) c d = translate s (a + c) (b + d) := by
  unfold translate
  rw [Finset.image_image]
  apply Finset.image_congr
  intro p _
  simp only [Function.comp_apply, Prod.mk.injEq]
  constructor <;> ring

theorem translate_zero (s : Shape) : translate s 0 0 = s := by
  unfold translate
  have : (fun c : Cell => (c.1 + 0, c.2 + 0)) = id := by
    funext p
    simp
  rw [this, Finset.image_id]

theorem translate_injective {tx ty : ℤ} :
    Function.Injective (fun c : Cell => (c.1 + tx, c.2 + ty)) := by
  intro a b hab
  simp only [Prod.mk.injEq] at hab
  rcases a with ⟨x1, y1⟩; rcases b with ⟨x2, y2⟩
  simp only [Prod.mk.injEq]
  simp only at hab
  omega

theorem card_translate (s : Shape) (tx ty : ℤ) : (translate s tx ty).card = s.card :=
  Finset.card_image_of_injective s translate_injective

theorem normalize_eq_translate (s : Shape) :
    normalize s = translate s (-minX s) (-minY s) := by
  unfold normalize translate
  apply Finset.image_congr
  intro p _
  simp only [Prod.mk.injEq]
  constructor <;> ring

theorem normalize_empty : normalize (∅ : Shape) = ∅ := rfl

theorem normalize_nonempty {s : Shape} : (normalize s).Nonempty ↔ s.Nonempty := by
  unfold normalize
  exact Finset.image_nonempty

theorem card_normalize (s : Shape) : (normalize s).card = s.card := by
  rw [normalize_eq_translate]
  exact card_translate s _ _

theorem normalize_translate (s : Shape) (tx ty : ℤ) :
    normalize (translate s tx ty) = normalize s := by
  rcases Finset.eq_empty_or_nonempty s with rfl | h
  · rw [translate_empty]
  · rw [normalize_eq_translate, normalize_eq_translate,
      minX_translate tx ty h, minY_translate tx ty h, translate_translate]
    congr 1 <;> ring

theorem minX_normalize {s : Shape} (h : s.Nonempty) : minX (normalize s) = 0 := by
  rw [normalize_eq_translate, minX_translate _ _ h]
  ring

theorem minY_normalize {s : Shape} (h : s.Nonempty) : minY (normalize s) = 0 := by
  rw [normalize_eq_translate, minY_translate _ _ h]
  ring

theorem normalize_idem (s : Shape) : normalize (normalize s) = normalize s := by
  rcases Finset.eq_empty_or_nonempty s with rfl | h
  · rfl
  · rw [normalize_eq_translate s, normalize_translate, normalize_eq_translate s]

theorem translate_normalize_self {s : Shape} (h : s.Nonempty) :
    translate (normalize s) (minX s) (minY s) = s := by
  rw [normalize_eq_translate, translate_translate]
  have h1 : -minX s + minX s = 0 := by ring
  have h2 : -minY s + minY s = 0 := by ring
  rw [h1, h2, translate_zero]

theorem normalize_eq_iff_translate {s t : Shape} :
    normalize s = normalize t ↔ ∃ a b, t = translate s a b := by
  constructor
  · intro h
    rcases Finset.eq_empty_or_nonempty s with rfl | hs
    · refine ⟨0, 0, ?_⟩
      rw [translate_empty]
      have h0 : normalize t = ∅ := by rw [← h, normalize_empty]
      rcases Finset.eq_empty_or_nonempty t with h1 | h1
      · exact h1
      · exact absurd h0 (normalize_nonempty.mpr h1).ne_empty
    · have ht : t.Nonempty := by
        rcases Finset.eq_empty_or_nonempty t with rfl | h1
        · rw [normalize_empty] at h
          exact absurd h (normalize_nonempty.mpr hs).ne_empty
        · exact h1
      refine ⟨minX t - minX s, minY t - minY s, ?_⟩
      calc t = translate (normalize t) (minX t) (minY t) := (translate_normalize_self ht).symm
        _ = translate (normalize s) (minX t) (minY t) := by rw [h]
        _ = translate (translate s (-minX s) (-minY s)) (minX t) (minY t) := by
            rw [normalize_eq_translate]
        _ = translate s (minX t - minX s) (minY t - minY s) := by
            rw [translate_translate]
            congr 1 <;> ring
  · rintro ⟨a, b, rfl⟩
    rw [normalize_translate]


theorem rotateCell_add (n : ℕ) (a b : Cell) :
    rotateCell n (a.1 + b.1, a.2 + b.2) =
      ((rotateCell n a).1 + (rotateCell n b).1, (rotateCell n a).2 + (rotateCell n b).2) := by
  induction n generalizing a b with
  | zero => rfl
  | succ n ih =>
    show rotateCell n (-(a.2 + b.2), a.1 + b.1) = _
    have h1 : (-(a.2 + b.2), a.1 + b.1) =
        (((-a.2, a.1) : Cell).1 + ((-b.2, b.1) : Cell).1,
         ((-a.2, a.1) : Cell).2 + ((-b.2, b.1) : Cell).2) := by
      simp only [Prod.mk.injEq]
      constructor <;> ring
    rw [h1, ih]
    rfl

theorem transformCell_add (fx fy : Bool) (r : ℕ) (a b : Cell) :
    transformCell fx fy r (a.1 + b.1, a.2 + b.2) =
      ((transformCell fx fy r a).1 + (transformCell fx fy r b).1,
       (transformCell fx fy r a).2 + (transformCell fx fy r b).2) := by
  unfold transformCell
  have h1 : (if fx then -(a.1 + b.1) else a.1 + b.1,
             if fy then -(a.2 + b.2) else a.2 + b.2) =
      (((if fx then -a.1 else a.1, if fy then -a.2 else a.2) : Cell).1 +
        ((if fx then -b.1 else b.1, if fy then -b.2 else b.2) : Cell).1,
       ((if fx then -a.1 else a.1, if fy then -a.2 else a.2) : Cell).2 +
        ((if fx then -b.1 else b.1, if fy then -b.2 else b.2) : Cell).2) := by
    cases fx <;> cases fy <;> simp [Prod.ext_iff] <;> omega
  rw [h1, rotateCell_add]

theorem transform_inverse (fx fy : Bool) (r : ℕ) (hr : r < 4) :
    ∃ fx' fy' r', r' < 4 ∧
      ∀ c, transformCell fx' fy' r' (transformCell fx fy r c) = c := by
  interval_cases r
  · exact ⟨fx, fy, 0, by norm_num, fun c => by
      obtain ⟨x, y⟩ := c
      cases fx <;> cases fy <;> simp [transformCell, rotateCell]⟩
  · exact ⟨fy, fx, 3, by norm_num, fun c => by
      obtain ⟨x, y⟩ := c
      cases fx <;> cases fy <;> simp [transformCell, rotateCell]⟩
  · exact ⟨fx, fy, 2, by norm_num, fun c => by
      obtain ⟨x, y⟩ := c
      cases fx <;> cases fy <;> simp [transformCell, rotateCell]⟩
  · exact ⟨fy, fx, 1, by norm_num, fun c => by
      obtain ⟨x, y⟩ := c
      cases fx <;> cases fy <;> simp [transformCell, rotateCell]⟩

theorem transformCell_injective (fx fy : Bool) (r : ℕ) (hr : r < 4) :
    Function.Injective (transformCell fx fy r) := by
  obtain ⟨fx', fy', r', _, hinv⟩ := transform_inverse fx fy r hr
  intro a b hab
  have := congrArg (transformCell fx' fy' r') hab
  rwa [hinv, hinv] at this

theorem card_image_transform (s : Shape) (fx fy : Bool) (r : ℕ) (hr : r < 4) :
    (s.image (transformCell fx fy r)).card = s.card :=
  Finset.card_image_of_injective s (transformCell_injective fx fy r hr)

theorem image_transform_translate (s : Shape) (fx fy : Bool) (r : ℕ) (tx ty : ℤ) :
    (translate s tx ty).image (transformCell fx fy r) =
      translate (s.image (transformCell fx fy r))
        (transformCell fx fy r (tx, ty)).1 (transformCell fx fy r (tx, ty)).2 := by
  unfold translate
  rw [Finset.image_image, Finset.image_image]
  apply Finset.image_congr
  intro p _
  simp only [Function.comp_apply]
  exact transformCell_add fx fy r p (tx, ty)

theorem normalize_image_transform_translate (s : Shape) (fx fy : Bool) (r : ℕ) (tx ty : ℤ) :
    normalize ((translate s tx ty).image (transformCell fx fy r)) =
      normalize (s.image (transformCell fx fy r)) := by
  rw [image_transform_translate, normalize_translate]


/-- `normalize_shape(cells)` from `main.py` (explicit empty case, then the
same min-shift as `normalize`). -/
def normalize_shape (cells : Shape) : Shape :=
  if cells = ∅ then ∅
  else cells.image (fun c => (c.1 - minX cells, c.2 - minY cells))

theorem normalize_shape_eq (cells : Shape) : normalize_shape cells = normalize cells := by
  unfold normalize_shape normalize
  split
  · subst ‹cells = ∅›
    rfl
  · rfl

/-- `shapes_match(cells1, cells2)` from `main.py`: equal cell count and some
of the 16 (flip, flip, rotation) transforms of `cells2` normalizes to the
normalization of `cells1`. -/
def shapes_match (cells1 cells2 : Shape) : Prop :=
  cells1.card = cells2.card ∧
    ∃ fx fy : Bool, ∃ rot : Fin 4,
      normalize_shape (cells2.image (transformCell fx fy rot.val)) = normalize_shape cells1

instance shapes_match.dec (cells1 cells2 : Shape) : Decidable (shapes_match cells1 cells2) := by
  unfold shapes_match
  infer_instance

theorem shapes_match_refl (s : Shape) : shapes_match s s := by
  refine ⟨rfl, false, false, 0, ?_⟩
  have h1 : s.image (transformCell false false 0) = s := by
    have h2 : ∀ c : Cell, transformCell false false 0 c = c := fun c => rfl
    calc s.image (transformCell false false 0) = s.image (fun c => c) := by
          apply Finset.image_congr
          intro p _
          exact h2 p
      _ = s := Finset.image_id'
  simp only [Fin.val_zero]
  rw [h1]

theorem image_comp_transform (s : Shape) (f g : Cell → Cell) :
    (s.image f).image g = s.image (fun c => g (f c)) := by
  rw [Finset.image_image]
  rfl

theorem shapes_match_symm {a b : Shape} (h : shapes_match a b) : shapes_match b a := by
  obtain ⟨hcard, fx, fy, rot, heq⟩ := h
  rw [normalize_shape_eq, normalize_shape_eq] at heq
  rcases Finset.eq_empty_or_nonempty a with rfl | ha
  · have hb : b = ∅ := Finset.card_eq_zero.mp (hcard.symm.trans Finset.card_empty)
    subst hb
    exact shapes_match_refl ∅
  · obtain ⟨fx', fy', r', hr', hinv⟩ := transform_inverse fx fy rot.val rot.isLt
    refine ⟨hcard.symm, fx', fy', ⟨r', hr'⟩, ?_⟩
    rw [normalize_shape_eq, normalize_shape_eq]
    obtain ⟨u, v, hab⟩ := normalize_eq_iff_translate.mp heq
    have h1 : a.image (transformCell fx' fy' r') =
        translate (b.image (fun c => transformCell fx' fy' r' (transformCell fx fy rot.val c)))
          (transformCell fx' fy' r' (u, v)).1 (transformCell fx' fy' r' (u, v)).2 := by
      rw [hab, image_transform_translate, image_comp_transform]
    have h2 : b.image (fun c => transformCell fx' fy' r' (transformCell fx fy rot.val c)) = b := by
      calc b.image (fun c => transformCell fx' fy' r' (transformCell fx fy rot.val c))
          = b.image (fun c => c) := by
            apply Finset.image_congr
            intro p _
            exact hinv p
        _ = b := Finset.image_id'
    rw [h1, h2, normalize_translate]

theorem shapes_match_translate_right (a b : Shape) (tx ty : ℤ) :
    shapes_match a (translate b tx ty) ↔ shapes_match a b := by
  unfold shapes_match
  rw [card_translate]
  constructor
  · rintro ⟨hcard, fx, fy, rot, heq⟩
    refine ⟨hcard, fx, fy, rot, ?_⟩
    rw [normalize_shape_eq, normalize_shape_eq] at heq ⊢
    rwa [normalize_image_transform_translate] at heq
  · rintro ⟨hcard, fx, fy, rot, heq⟩
    refine ⟨hcard, fx, fy, rot, ?_⟩
    rw [normalize_shape_eq, normalize_shape_eq] at heq ⊢
    rwa [normalize_image_transform_translate]

theorem normalize_shape_translate (a : Shape) (tx ty : ℤ) :
    normalize_shape (translate a tx ty) = normalize_shape a := by
  rw [normalize_shape_eq, normalize_shape_eq, normalize_translate]

theorem shapes_match_translate_left (a b : Shape) (tx ty : ℤ) :
    shapes_match (translate a tx ty) b ↔ shapes_match a b := by
  unfold shapes_match
  rw [card_translate, normalize_shape_translate]

theorem shapes_match_of_normalize_eq {a a' : Shape} (h : normalize a = normalize a')
    (b : Shape) : shapes_match a b ↔ shapes_match a' b := by
  unfold shapes_match
  have hc : a.card = a'.card := by
    rw [← card_normalize a, ← card_normalize a', h]
  rw [normalize_shape_eq a, normalize_shape_eq a', h, hc]


/-- C7: for every preset shape in the catalog, its symmetry variant set has
size dividing 8, every variant has the same cell count as the base shape,
and the set is closed under the dihedral transforms: applying any of the
(flip, flip, rotation) transforms of the source to any member and
normalizing yields another member of the same set. -/
theorem C7_variant_sets : ∀ ns ∈ PRESET_SHAPES,
    (SHAPE_VARIANTS ns.1).length ∣ 8 ∧
    (∀ v ∈ SHAPE_VARIANTS ns.1, v.card = ns.2.card) ∧
    (∀ v ∈ SHAPE_VARIANTS ns.1, ∀ fx fy : Bool, ∀ r : Fin 4,
      normalize (v.image (transformCell fx fy r.val)) ∈ SHAPE_VARIANTS ns.1) := by
  decide

/-- Witness for C7 at the concrete catalog entry for the L-tromino. -/
theorem C7_variant_sets_witness :
    ("tromino_L", normalize {((0 : ℤ), (0 : ℤ)), (0, 1), (1, 0)}) ∈ PRESET_SHAPES ∧
    ((SHAPE_VARIANTS "tromino_L").length ∣ 8 ∧
     (∀ v ∈ SHAPE_VARIANTS "tromino_L",
        v.card = (normalize {((0 : ℤ), (0 : ℤ)), (0, 1), (1, 0)}).card) ∧
     (∀ v ∈ SHAPE_VARIANTS "tromino_L", ∀ fx fy : Bool, ∀ r : Fin 4,
        normalize (v.image (transformCell fx fy r.val)) ∈ SHAPE_VARIANTS "tromino_L")) :=
  ⟨by decide, C7_variant_sets ("tromino_L", normalize {((0 : ℤ), (0 : ℤ)), (0, 1), (1, 0)})
    (by decide)⟩

/-- C8: `shapes_match` is reflexive and symmetric. -/
theorem C8_shapes_match_refl_symm :
    (∀ s : Shape, shapes_match s s) ∧
    (∀ a b : Shape, shapes_match a b ↔ shapes_match b a) :=
  ⟨shapes_match_refl, fun _ _ => ⟨shapes_match_symm, shapes_match_symm⟩⟩


/-- Corner adjacency between two cell sets: some cell of the first has a
diagonal neighbor in the second (the `connected` test inside
`corner_connected_components`). -/
def cornerAdjacent (a b : Shape) : Prop :=
  ∃ c ∈ a, ∃ d ∈ corner_neighbors c, d ∈ b

instance cornerAdjacent.dec (a b : Shape) : Decidable (cornerAdjacent a b) := by
  unfold cornerAdjacent
  infer_instance

theorem mem_corner_neighbors {c d : Cell} :
    d ∈ corner_neighbors c ↔ c ∈ corner_neighbors d := by
  rcases c with ⟨x1, y1⟩; rcases d with ⟨x2, y2⟩
  simp only [corner_neighbors, List.mem_cons, List.mem_singleton, Prod.mk.injEq,
    List.not_mem_nil, or_false]
  omega

theorem cornerAdjacent_comm {a b : Shape} : cornerAdjacent a b ↔ cornerAdjacent b a := by
  unfold cornerAdjacent
  constructor
  · rintro ⟨c, hc, d, hd, hdb⟩
    exact ⟨d, hdb, c, mem_corner_neighbors.mp hd, hc⟩
  · rintro ⟨c, hc, d, hd, hdb⟩
    exact ⟨d, hdb, c, mem_corner_neighbors.mp hd, hc⟩

/-- The symmetric adjacency lists built by the double loop of
`corner_connected_components` (`adj[i].append(j); adj[j].append(i)`); list
entry `i` holds every `j ≠ i` whose cell set is corner-adjacent to set `i`. -/
def adjListFor (sets : List Shape) : List (List ℕ) :=
  (List.range sets.length).map fun i =>
    (List.range sets.length).filter fun j =>
      decide (j ≠ i ∧ cornerAdjacent (sets.getD i ∅) (sets.getD j ∅))

/-- The index-level corner-adjacency relation of a list of cell sets. -/
def cornerRel (sets : List Shape) (i j : ℕ) : Prop :=
  i < sets.length ∧ j < sets.length ∧ i ≠ j ∧
    cornerAdjacent (sets.getD i ∅) (sets.getD j ∅)

theorem mem_adjListFor {sets : List Shape} {i j : ℕ} :
    j ∈ (adjListFor sets).getD i [] ↔ cornerRel sets i j := by
  unfold adjListFor cornerRel
  by_cases hi : i < sets.length
  · rw [List.getD_eq_getElem?_getD, List.getElem?_map, List.getElem?_range hi]
    simp only [Option.map_some', Option.getD_some]
    rw [List.mem_filter, List.mem_range, decide_eq_true_eq]
    tauto
  · have hlen : (List.range sets.length).length ≤ i := by
      rw [List.length_range]; omega
    rw [List.getD_eq_getElem?_getD, List.getElem?_map, List.getElem?_eq_none hlen]
    simp only [Option.map_none', Option.getD_none, List.not_mem_nil, false_iff]
    intro hc
    exact hi hc.1

theorem cornerRel_symm {sets : List Shape} {i j : ℕ} (h : cornerRel sets i j) :
    cornerRel sets j i := by
  obtain ⟨hi, hj, hne, hadj⟩ := h
  exact ⟨hj, hi, hne.symm, cornerAdjacent_comm.mp hadj⟩

/-- The worklist traversal shared by `corner_connected_components` (stack,
`q.pop()`) and the `/verify` connectivity check (queue, `q.pop(0)`).  The
visited set it computes does not depend on the pop side; `fifo` only selects
the source's worklist discipline.  The fuel argument bounds the number of
pops; each pushed vertex is marked visited on push, so `|universe| + 1` pops
always suffice and callers pass that bound. -/
def traverse (adjL : List (List ℕ)) (fifo : Bool) : ℕ → List ℕ → Finset ℕ → Finset ℕ
  | 0, _, visited => visited
  | _ + 1, [], visited => visited
  | fuel + 1, u :: q, visited =>
    let new := (adjL.getD u []).filter fun v => decide (v ∉ visited)
    traverse adjL fifo fuel (if fifo then q ++ new else new ++ q) (visited ∪ new.toFinset)

/-- Single adjacency step used to phrase reachability in `adjL`. -/
def stepRel (adjL : List (List ℕ)) (a b : ℕ) : Prop :=
  b ∈ adjL.getD a []

theorem mem_ite_append {fifo : Bool} {q new : List ℕ} {w : ℕ} :
    (w ∈ (if fifo = true then q ++ new else new ++ q)) ↔ w ∈ q ∨ w ∈ new := by
  cases fifo <;> simp [List.mem_append] <;> tauto

theorem length_ite_append {fifo : Bool} {q new : List ℕ} :
    (if fifo = true then q ++ new else new ++ q).length = q.length + new.length := by
  cases fifo <;> simp [List.length_append] <;> omega

theorem traverse_mono (adjL : List (List ℕ)) (fifo : Bool) :
    ∀ (fuel : ℕ) (q : List ℕ) (visited : Finset ℕ),
      visited ⊆ traverse adjL fifo fuel q visited := by
  intro fuel
  induction fuel with
  | zero => intro q visited; rw [traverse]
  | succ n ih =>
    intro q visited
    match q with
    | [] => rw [traverse]
    | u :: q =>
      rw [traverse]
      refine Finset.Subset.trans ?_ (ih _ _)
      exact Finset.subset_union_left

theorem traverse_sound (adjL : List (List ℕ)) (fifo : Bool) :
    ∀ (fuel : ℕ) (q : List ℕ) (visited : Finset ℕ) (v : ℕ),
      v ∈ traverse adjL fifo fuel q visited →
      v ∈ visited ∨ ∃ u ∈ q, Relation.ReflTransGen (stepRel adjL) u v := by
  intro fuel
  induction fuel with
  | zero =>
    intro q visited v hv
    rw [traverse] at hv
    exact Or.inl hv
  | succ n ih =>
    intro q visited v hv
    match q with
    | [] =>
      rw [traverse] at hv
      exact Or.inl hv
    | u :: q =>
      rw [traverse] at hv
      rcases ih _ _ _ hv with h | ⟨w, hw, hreach⟩
      · rcases Finset.mem_union.mp h with h | h
        · exact Or.inl h
        · rcases List.mem_toFinset.mp h with h'
          have hstep : stepRel adjL u v := (List.mem_filter.mp h').1
          exact Or.inr ⟨u, List.mem_cons_self u q, Relation.ReflTransGen.single hstep⟩
      · rcases mem_ite_append.mp hw with h | h
        · exact Or.inr ⟨w, List.mem_cons_of_mem u h, hreach⟩
        · have hstep : stepRel adjL u w := (List.mem_filter.mp h).1
          exact Or.inr ⟨u, List.mem_cons_self u q,
            Relation.ReflTransGen.head hstep hreach⟩


theorem traverse_closed (adjL : List (List ℕ)) (fifo : Bool) (U : Finset ℕ)
    (hnodup : ∀ l ∈ adjL, l.Nodup) (hsub : ∀ l ∈ adjL, ∀ x ∈ l, x ∈ U) :
    ∀ (fuel : ℕ) (q : List ℕ) (visited : Finset ℕ),
      (∀ u ∈ q, u ∈ visited) →
      (∀ u ∈ visited, u ∈ q ∨ ∀ v ∈ adjL.getD u [], v ∈ visited) →
      (U \ visited).card + q.length ≤ fuel →
      ∀ u ∈ traverse adjL fifo fuel q visited, ∀ v ∈ adjL.getD u [],
        v ∈ traverse adjL fifo fuel q visited := by
  have hgetD : ∀ (u : ℕ), ∀ x ∈ adjL.getD u [], x ∈ U := by
    intro u x hx
    by_cases hu : u < adjL.length
    · rw [List.getD_eq_getElem?_getD, List.getElem?_eq_getElem hu] at hx
      exact hsub _ (List.getElem_mem hu) x hx
    · rw [List.getD_eq_getElem?_getD, List.getElem?_eq_none (by omega)] at hx
      simp at hx
  have hgetDnodup : ∀ (u : ℕ), (adjL.getD u []).Nodup := by
    intro u
    by_cases hu : u < adjL.length
    · rw [List.getD_eq_getElem?_getD, List.getElem?_eq_getElem hu]
      exact hnodup _ (List.getElem_mem hu)
    · rw [List.getD_eq_getElem?_getD, List.getElem?_eq_none (by omega)]
      exact List.nodup_nil
  intro fuel
  induction fuel with
  | zero =>
    intro q visited hq hcl hfuel
    match q with
    | [] =>
      rw [traverse]
      intro u hu v hv
      rcases hcl u hu with h | h
      · simp at h
      · exact h v hv
    | u :: q => simp at hfuel
  | succ n ih =>
    intro q visited hq hcl hfuel
    match q with
    | [] =>
      rw [traverse]
      intro u hu v hv
      rcases hcl u hu with h | h
      · simp at h
      · exact h v hv
    | u :: q =>
      rw [traverse]
      set new := (adjL.getD u []).filter (fun v => decide (v ∉ visited)) with hnew
      have hnewsub : ∀ x ∈ new, x ∈ U ∧ x ∉ visited := by
        intro x hx
        have h1 := (List.mem_filter.mp hx).1
        have h2 := (List.mem_filter.mp hx).2
        rw [decide_eq_true_eq] at h2
        exact ⟨hgetD u x h1, h2⟩
      have hnewnodup : new.Nodup := (hgetDnodup u).filter _
      have hcard : new.toFinset.card = new.length := by
        rw [List.toFinset_card_of_nodup hnewnodup]
      have hsubset : new.toFinset ⊆ U \ visited := by
        intro x hx
        rcases hnewsub x (List.mem_toFinset.mp hx) with ⟨h1, h2⟩
        exact Finset.mem_sdiff.mpr ⟨h1, h2⟩
      apply ih
      · intro w hw
        rcases mem_ite_append.mp hw with h | h
        · exact Finset.mem_union_left _ (hq w (List.mem_cons_of_mem u h))
        · exact Finset.mem_union_right _ (List.mem_toFinset.mpr h)
      · intro w hw
        rcases Finset.mem_union.mp hw with hwv | hwn
        · rcases hcl w hwv with hwq | hwcl
          · rcases List.mem_cons.mp hwq with rfl | hwq'
            · right
              intro v hv
              by_cases hvv : v ∈ visited
              · exact Finset.mem_union_left _ hvv
              · refine Finset.mem_union_right _ (List.mem_toFinset.mpr ?_)
                rw [hnew]
                rw [List.mem_filter]
                exact ⟨hv, by rw [decide_eq_true_eq]; exact hvv⟩
            · exact Or.inl (mem_ite_append.mpr (Or.inl hwq'))
          · right
            intro v hv
            exact Finset.mem_union_left _ (hwcl v hv)
        · exact Or.inl (mem_ite_append.mpr (Or.inr (List.mem_toFinset.mp hwn)))
      · have hlen : (if fifo = true then q ++ new else new ++ q).length = q.length + new.length :=
          length_ite_append
        have hsd : (U \ (visited ∪ new.toFinset)).card = (U \ visited).card - new.length := by
          rw [← hcard]
          have : U \ (visited ∪ new.toFinset) = (U \ visited) \ new.toFinset := by
            ext x
            simp only [Finset.mem_sdiff, Finset.mem_union]
            tauto
          rw [this, Finset.card_sdiff hsubset]
        have hge : new.length ≤ (U \ visited).card := by
          rw [← hcard]
          exact Finset.card_le_card hsubset
        rw [hlen, hsd]
        simp only [List.length_cons] at hfuel
        omega

theorem reach_subset_of_closed {adjL : List (List ℕ)} {S : Finset ℕ}
    (hclosed : ∀ u ∈ S, ∀ v ∈ adjL.getD u [], v ∈ S) {u v : ℕ}
    (hu : u ∈ S) (hreach : Relation.ReflTransGen (stepRel adjL) u v) : v ∈ S := by
  induction hreach with
  | refl => exact hu
  | tail hab hbc ih => exact hclosed _ ih _ hbc


/-- The outer loop of `corner_connected_components`: for each index in
order, skip it if already visited, otherwise traverse its component,
record the newly visited vertices as one component, and continue. -/
def compsGo (adjL : List (List ℕ)) : List ℕ → Finset ℕ → List (Finset ℕ) → List (Finset ℕ)
  | [], _, comps => comps
  | i :: is, visited, comps =>
    if i ∈ visited then compsGo adjL is visited comps
    else
      compsGo adjL is (traverse adjL false (adjL.length + 1) [i] (insert i visited))
        (comps ++ [traverse adjL false (adjL.length + 1) [i] (insert i visited) \ visited])

/-- `corner_connected_components(placed_sets)`. -/
def corner_connected_components (placed_sets : List Shape) : List (Finset ℕ) :=
  compsGo (adjListFor placed_sets) (List.range placed_sets.length) ∅ []

theorem compsGo_skip (adjL : List (List ℕ)) :
    ∀ (is : List ℕ) (visited : Finset ℕ) (comps : List (Finset ℕ)),
      (∀ i ∈ is, i ∈ visited) → compsGo adjL is visited comps = comps := by
  intro is
  induction is with
  | nil => intro visited comps _; rfl
  | cons i is ih =>
    intro visited comps hall
    rw [compsGo, if_pos (hall i (List.mem_cons_self i is))]
    exact ih visited comps (fun j hj => hall j (List.mem_cons_of_mem i hj))

theorem compsGo_length_le (adjL : List (List ℕ)) :
    ∀ (is : List ℕ) (visited : Finset ℕ) (comps : List (Finset ℕ)),
      comps.length ≤ (compsGo adjL is visited comps).length := by
  intro is
  induction is with
  | nil => intro visited comps; exact le_refl _
  | cons i is ih =>
    intro visited comps
    rw [compsGo]
    by_cases h : i ∈ visited
    · rw [if_pos h]; exact ih visited comps
    · rw [if_neg h]
      refine le_trans ?_ (ih _ _)
      rw [List.length_append]
      omega

theorem compsGo_creates (adjL : List (List ℕ)) :
    ∀ (is : List ℕ) (visited : Finset ℕ) (comps : List (Finset ℕ)) (j : ℕ),
      j ∈ is → j ∉ visited →
      comps.length + 1 ≤ (compsGo adjL is visited comps).length := by
  intro is
  induction is with
  | nil => intro _ _ _ hj; simp at hj
  | cons i is ih =>
    intro visited comps j hj hjv
    rw [compsGo]
    by_cases h : i ∈ visited
    · rw [if_pos h]
      rcases List.mem_cons.mp hj with rfl | hj'
      · exact absurd h hjv
      · exact ih visited comps j hj' hjv
    · rw [if_neg h]
      refine le_trans ?_ (compsGo_length_le adjL _ _ _)
      rw [List.length_append]
      simp

theorem adjListFor_length (sets : List Shape) : (adjListFor sets).length = sets.length := by
  unfold adjListFor
  rw [List.length_map, List.length_range]

theorem adjListFor_nodup (sets : List Shape) : ∀ l ∈ adjListFor sets, l.Nodup := by
  intro l hl
  unfold adjListFor at hl
  rcases List.mem_map.mp hl with ⟨i, _, rfl⟩
  exact List.Nodup.filter _ (List.nodup_range _)

theorem adjListFor_sub (sets : List Shape) :
    ∀ l ∈ adjListFor sets, ∀ x ∈ l, x ∈ Finset.range sets.length := by
  intro l hl x hx
  unfold adjListFor at hl
  rcases List.mem_map.mp hl with ⟨i, _, rfl⟩
  rw [Finset.mem_range]
  exact List.mem_range.mp (List.mem_filter.mp hx).1

theorem stepRel_adjListFor {sets : List Shape} {a b : ℕ} :
    stepRel (adjListFor sets) a b ↔ cornerRel sets a b :=
  mem_adjListFor

theorem reach_adjListFor {sets : List Shape} {a b : ℕ} :
    Relation.ReflTransGen (stepRel (adjListFor sets)) a b ↔
      Relation.ReflTransGen (cornerRel sets) a b := by
  constructor
  · exact Relation.ReflTransGen.mono (fun x y h => stepRel_adjListFor.mp h)
  · exact Relation.ReflTransGen.mono (fun x y h => stepRel_adjListFor.mpr h)

theorem components_length_one_iff (sets : List Shape) :
    (corner_connected_components sets).length = 1 ↔
      sets ≠ [] ∧ ∀ j < sets.length, Relation.ReflTransGen (cornerRel sets) 0 j := by
  unfold corner_connected_components
  rcases hlen : sets.length with _ | m
  · have hsets : sets = [] := List.length_eq_zero.mp hlen
    subst hsets
    simp [compsGo]
  · have hne : sets ≠ [] := by
      intro h
      rw [h] at hlen
      simp at hlen
    rw [← hlen]
    have hrange : List.range sets.length = 0 :: (List.range m).map Nat.succ := by
      rw [hlen, List.range_succ_eq_map]
    set adjL := adjListFor sets with hadjL
    set r0 := traverse adjL false (adjL.length + 1) [0] (insert 0 ∅) with hr0
    have hstep1 : compsGo adjL (List.range sets.length) ∅ [] =
        compsGo adjL ((List.range m).map Nat.succ) r0 [r0 \ ∅] := by
      rw [hrange, compsGo, if_neg (Finset.not_mem_empty 0), List.nil_append]
    have hr0sound : ∀ v ∈ r0, Relation.ReflTransGen (stepRel adjL) 0 v := by
      intro v hv
      rcases traverse_sound adjL false _ _ _ v hv with h | ⟨u, hu, hreach⟩
      · rcases Finset.mem_insert.mp h with rfl | h'
        · exact Relation.ReflTransGen.refl
        · simp at h'
      · rcases List.mem_singleton.mp hu with rfl
        exact hreach
    constructor
    · intro hone
      refine ⟨hne, ?_⟩
      intro j hj
      rw [← reach_adjListFor]
      by_contra hnr
      have hj0 : j ≠ 0 := by
        intro h
        subst h
        exact hnr Relation.ReflTransGen.refl
      have hjr0 : j ∉ r0 := fun h => hnr (hr0sound j h)
      have hjmem : j ∈ (List.range m).map Nat.succ := by
        have hjr : j ∈ List.range sets.length := List.mem_range.mpr hj
        rw [hrange] at hjr
        rcases List.mem_cons.mp hjr with h | h
        · exact absurd h hj0
        · exact h
      have hcre := compsGo_creates adjL _ r0 [r0 \ ∅] j hjmem hjr0
      rw [hstep1] at hone
      simp only [List.length_singleton] at hcre
      omega
    · rintro ⟨-, hall⟩
      rw [hstep1]
      have hclosed : ∀ u ∈ r0, ∀ v ∈ adjL.getD u [], v ∈ r0 := by
        apply traverse_closed adjL false (Finset.range sets.length)
          (adjListFor_nodup sets) (adjListFor_sub sets)
        · intro u hu
          rcases List.mem_singleton.mp hu with rfl
          exact Finset.mem_insert_self 0 ∅
        · intro u hu
          rcases Finset.mem_insert.mp hu with rfl | h'
          · exact Or.inl (List.mem_singleton.mpr rfl)
          · simp at h'
        · have hcard : (Finset.range sets.length \ insert 0 ∅).card ≤ sets.length := by
            refine le_trans (Finset.card_le_card Finset.sdiff_subset) ?_
            rw [Finset.card_range]
          have hlen2 : adjL.length = sets.length := adjListFor_length sets
          simp only [List.length_singleton]
          omega
      have h0r0 : (0 : ℕ) ∈ r0 := by
        have hmono := traverse_mono adjL false (adjL.length + 1) [0] (insert 0 ∅)
        exact hmono (Finset.mem_insert_self 0 ∅)
      have hallin : ∀ j < sets.length, j ∈ r0 := by
        intro j hj
        refine reach_subset_of_closed hclosed h0r0 ?_
        rw [reach_adjListFor]
        exact hall j hj
      have hskip : ∀ i ∈ (List.range m).map Nat.succ, i ∈ r0 := by
        intro i hi
        rcases List.mem_map.mp hi with ⟨k, hk, rfl⟩
        have hkm : k < m := List.mem_range.mp hk
        exact hallin (Nat.succ k) (by omega)
      rw [compsGo_skip adjL _ r0 _ hskip]
      rfl

theorem reach_cornerRel_symm {sets : List Shape} :
    Symmetric (Relation.ReflTransGen (cornerRel sets)) :=
  Relation.ReflTransGen.symmetric (fun _ _ h => cornerRel_symm h)

theorem components_one_all_pairs {sets : List Shape}
    (h : (corner_connected_components sets).length = 1) :
    ∀ i j, i < sets.length → j < sets.length →
      Relation.ReflTransGen (cornerRel sets) i j := by
  intro i j hi hj
  obtain ⟨-, hall⟩ := (components_length_one_iff sets).mp h
  exact Relation.ReflTransGen.trans (reach_cornerRel_symm (hall i hi)) (hall j hj)


theorem mem_orthogonal_neighbors {c d : Cell} :
    d ∈ orthogonal_neighbors c ↔ c ∈ orthogonal_neighbors d := by
  rcases c with ⟨x1, y1⟩; rcases d with ⟨x2, y2⟩
  simp only [orthogonal_neighbors, List.mem_cons, List.mem_singleton, Prod.mk.injEq,
    List.not_mem_nil, or_false]
  omega

/-- Edge adjacency between two cell sets: some cell of the first is an
orthogonal neighbor of some cell of the second. -/
def edgeAdjacent (a b : Shape) : Prop :=
  ∃ c ∈ a, ∃ d ∈ orthogonal_neighbors c, d ∈ b

instance edgeAdjacent.dec (a b : Shape) : Decidable (edgeAdjacent a b) := by
  unfold edgeAdjacent
  infer_instance

theorem edgeAdjacent_comm {a b : Shape} : edgeAdjacent a b ↔ edgeAdjacent b a := by
  unfold edgeAdjacent
  constructor
  · rintro ⟨c, hc, d, hd, hdb⟩
    exact ⟨d, hdb, c, mem_orthogonal_neighbors.mp hd, hc⟩
  · rintro ⟨c, hc, d, hd, hdb⟩
    exact ⟨d, hdb, c, mem_orthogonal_neighbors.mp hd, hc⟩

/-- The orthogonal-neighbor halo of a placement (`orth_adj` in the source:
the set of orthogonal neighbors of all its cells). -/
def orthHalo (p : Shape) : Shape :=
  p.biUnion (fun c => (orthogonal_neighbors c).toFinset)

theorem mem_orthHalo {p : Shape} {x : Cell} :
    x ∈ orthHalo p ↔ ∃ c ∈ p, x ∈ orthogonal_neighbors c := by
  unfold orthHalo
  rw [Finset.mem_biUnion]
  constructor
  · rintro ⟨c, hc, hx⟩
    exact ⟨c, hc, List.mem_toFinset.mp hx⟩
  · rintro ⟨c, hc, hx⟩
    exact ⟨c, hc, List.mem_toFinset.mpr hx⟩

theorem edgeAdjacent_iff_meets_halo {a b : Shape} :
    edgeAdjacent a b ↔ ∃ x ∈ a, x ∈ orthHalo b := by
  constructor
  · rintro ⟨c, hc, d, hd, hdb⟩
    exact ⟨c, hc, mem_orthHalo.mpr ⟨d, hdb, mem_orthogonal_neighbors.mp hd⟩⟩
  · rintro ⟨x, hx, hhalo⟩
    rcases mem_orthHalo.mp hhalo with ⟨c, hc, hxc⟩
    exact ⟨x, hx, c, mem_orthogonal_neighbors.mp hxc, hc⟩

/-- A solver candidate (`{'cells': frozenset(p), 'orth_adj': frozenset(...)}`). -/
structure Cand where
  cells : Shape
  orth_adj : Shape

theorem Cand.eq_iff {a b : Cand} : a = b ↔ a.cells = b.cells ∧ a.orth_adj = b.orth_adj := by
  cases a
  cases b
  simp [Cand.mk.injEq]

instance Cand.decEq (a b : Cand) : Decidable (a = b) :=
  decidable_of_iff (a.cells = b.cells ∧ a.orth_adj = b.orth_adj) Cand.eq_iff.symm

/-- `enumerate_candidates_for_dark_fast(dark, shape_name, grid_w, grid_h,
dark_cells_union)`: every symmetry variant over every in-range translation,
kept iff disjoint from the dark cells and edge-touching `dark`. -/
def enumerate_candidates_for_dark_fast (dark : Shape) (shape_name : String)
    (grid_w grid_h : ℤ) (dark_cells_union : Shape) : List Cand :=
  (SHAPE_VARIANTS shape_name).flatMap fun var =>
    if grid_w - maxX var - 1 < 0 ∨ grid_h - maxY var - 1 < 0 then []
    else
      (intRange (grid_w - maxX var - 1 + 1)).flatMap fun tx =>
        (intRange (grid_h - maxY var - 1 + 1)).filterMap fun ty =>
          if translate var tx ty ∩ dark_cells_union ≠ ∅ then none
          else if ¬ edgeAdjacent (translate var tx ty) dark then none
          else some ⟨translate var tx ty, orthHalo (translate var tx ty)⟩

/-- Union of a list of cell sets (`set().union(*pieces)`). -/
def unionShapes (l : List Shape) : Finset Cell :=
  l.foldr (fun s acc => s ∪ acc) ∅

theorem mem_unionShapes {l : List Shape} {x : Cell} :
    x ∈ unionShapes l ↔ ∃ s ∈ l, x ∈ s := by
  induction l with
  | nil => simp [unionShapes]
  | cons s t ih =>
    unfold unionShapes at *
    rw [List.foldr_cons, Finset.mem_union, ih]
    simp

/-- The preset kind names whose base shape has `k` cells
(`names_per_piece` in `solve_puzzle_fast`). -/
def names_for_size (k : ℕ) : List String :=
  (PRESET_SHAPES.filter fun ns => decide (ns.2.card = k)).map Prod.fst

/-- Deduplication of a candidate list by exact cell set (the `uniq` dict
keyed on `c['cells']`; first-occurrence order is kept, and duplicate keys
carry identical halos since the halo is determined by the cell set). -/
def dedupByCells (cs : List Cand) : List Cand :=
  cs.foldl (fun acc c => if acc.any (fun c2 => decide (c2.cells = c.cells)) then acc
    else acc ++ [c]) []

/-- The per-dark-piece candidate pools `all_candidates` built at the top of
`solve_puzzle_fast`: the union over all preset kinds of matching size,
deduplicated by cell set. -/
def candidate_pools (grid_w grid_h : ℤ) (dark_pieces : List Shape) : List (List Cand) :=
  dark_pieces.map fun d =>
    dedupByCells ((names_for_size d.card).flatMap fun name =>
      enumerate_candidates_for_dark_fast d name grid_w grid_h (unionShapes dark_pieces))

/-- The solver's mutable state (`placed`, `used_cells`, `used_orth_adj`,
`solutions`, `nodes`), threaded functionally. -/
structure SolveState where
  placed : List (Option Cand)
  usedCells : Finset Cell
  usedOrth : Finset Cell
  solutions : List (List Shape)
  nodes : ℕ

/-- The solver's read-only data during search. -/
structure SolveParams where
  allCands : List (List Cand)
  stars : Finset Cell
  maxSolutions : ℕ
  maxNodes : ℕ

/-- The cell sets of a complete assignment, in dark-piece order (the
recorded solution `[tuple(sorted(p['cells'])) for p in placed]`); an
unassigned entry contributes the empty set and never occurs at a leaf. -/
def chosenCells (placed : List (Option Cand)) : List Shape :=
  placed.map fun o => (o.getD ⟨∅, ∅⟩).cells

/-- The leaf test of `backtrack` at `idx == n`: star coverage and a single
corner-connected component, recording the assignment on success. -/
def leafCheck (P : SolveParams) (st : SolveState) : SolveState :=
  if ¬ P.stars ⊆ unionShapes (chosenCells st.placed) then st
  else if (corner_connected_components (chosenCells st.placed)).length ≠ 1 then st
  else { st with solutions := st.solutions ++ [chosenCells st.placed] }

/-- The candidate loop of `backtrack` for piece `i`: skip candidates
meeting `used_cells` or `used_orth_adj`, otherwise place, recurse (`bt`),
restore, and stop early once the solution or node budget is hit. -/
def tryCandsGo (P : SolveParams) (bt : SolveState → SolveState) (i : ℕ) :
    List Cand → SolveState → SolveState
  | [], st => st
  | c :: cs, st =>
    if c.cells ∩ st.usedCells ≠ ∅ then tryCandsGo P bt i cs st
    else if ∃ x ∈ c.cells, x ∈ st.usedOrth then tryCandsGo P bt i cs st
    else
      let st1 := bt { placed := st.placed.set i (some c),
                      usedCells := st.usedCells ∪ c.cells,
                      usedOrth := st.usedOrth ∪ c.orth_adj,
                      solutions := st.solutions,
                      nodes := st.nodes }
      let st2 : SolveState := { placed := st1.placed.set i none,
                                usedCells := st.usedCells,
                                usedOrth := st.usedOrth,
                                solutions := st1.solutions,
                                nodes := st1.nodes }
      if P.maxSolutions ≤ st2.solutions.length then st2
      else if P.maxNodes < st2.nodes then st2
      else tryCandsGo P bt i cs st2

/-- `backtrack(idx)`, phrased on the suffix of the piece order that remains
to be assigned: count the node, stop if a budget is exhausted, run the leaf
check when no pieces remain, otherwise loop over the current piece's
candidates. -/
def backtrack (P : SolveParams) : List ℕ → SolveState → SolveState
  | [], st =>
    if P.maxNodes < st.nodes + 1 then { st with nodes := st.nodes + 1 }
    else if P.maxSolutions ≤ st.solutions.length then { st with nodes := st.nodes + 1 }
    else leafCheck P { st with nodes := st.nodes + 1 }
  | i :: rest2, st =>
    if P.maxNodes < st.nodes + 1 then { st with nodes := st.nodes + 1 }
    else if P.maxSolutions ≤ st.solutions.length then { st with nodes := st.nodes + 1 }
    else tryCandsGo P (backtrack P rest2) i (P.allCands.getD i [])
      { st with nodes := st.nodes + 1 }

/-- Insertion step of the stable sort used for the piece order. -/
def insertByKey (key : ℕ → ℕ) (i : ℕ) : List ℕ → List ℕ
  | [] => [i]
  | j :: js => if key i ≤ key j then i :: j :: js else j :: insertByKey key i js

/-- Stable insertion sort by key: the order produced by Python's stable
`sorted(range(n), key=...)`. -/
def sortByKey (key : ℕ → ℕ) : List ℕ → List ℕ
  | [] => []
  | i :: is => insertByKey key i (sortByKey key is)

theorem insertByKey_perm (key : ℕ → ℕ) (i : ℕ) (l : List ℕ) :
    (insertByKey key i l).Perm (i :: l) := by
  induction l with
  | nil => exact List.Perm.refl _
  | cons j js ih =>
    rw [insertByKey]
    by_cases h : key i ≤ key j
    · rw [if_pos h]
    · rw [if_neg h]
      exact (List.Perm.cons j ih).trans (List.Perm.swap i j js)

theorem sortByKey_perm (key : ℕ → ℕ) (l : List ℕ) : (sortByKey key l).Perm l := by
  induction l with
  | nil => exact List.Perm.refl _
  | cons i is ih =>
    rw [sortByKey]
    exact (insertByKey_perm key i (sortByKey key is)).trans (List.Perm.cons i ih)

/-- `solve_puzzle_fast(grid_w, grid_h, dark_pieces, stars, max_solutions,
max_nodes)`: build the candidate pools, fail fast on an empty pool, order
pieces by ascending pool size (stable), and run the bounded backtracking
search, returning the capped solution count and list. -/
def solve_puzzle_fast (grid_w grid_h : ℤ) (dark_pieces : List Shape) (stars : Finset Cell)
    (max_solutions : ℕ) (max_nodes : ℕ) : ℕ × List (List Shape) :=
  let all_candidates := candidate_pools grid_w grid_h dark_pieces
  if all_candidates.any (fun c => c.isEmpty) then (0, [])
  else
    let order := sortByKey (fun i => (all_candidates.getD i []).length)
      (List.range dark_pieces.length)
    let st := backtrack ⟨all_candidates, stars, max_solutions, max_nodes⟩ order
      ⟨List.replicate dark_pieces.length none, ∅, ∅, [], 0⟩
    (st.solutions.length, st.solutions)


theorem list_set_none_self (l : List (Option Cand)) (i : ℕ)
    (h : l.getD i none = none) : l.set i none = l := by
  induction l generalizing i with
  | nil => rfl
  | cons a t ih =>
    match i with
    | 0 =>
      simp only [List.getD_cons_zero] at h
      rw [h]
      rfl
    | k + 1 =>
      simp only [List.getD_cons_succ] at h
      rw [List.set_cons_succ, ih k h]

theorem list_getD_set_same (l : List (Option Cand)) (i : ℕ) (x : Option Cand)
    (h : i < l.length) : (l.set i x).getD i none = x := by
  induction l generalizing i with
  | nil => simp at h
  | cons a t ih =>
    match i with
    | 0 => rfl
    | k + 1 =>
      simp only [List.length_cons] at h
      rw [List.set_cons_succ, List.getD_cons_succ]
      exact ih k (by omega)

theorem list_getD_set_ne (l : List (Option Cand)) (i j : ℕ) (x : Option Cand)
    (h : j ≠ i) : (l.set i x).getD j none = l.getD j none := by
  induction l generalizing i j with
  | nil => rfl
  | cons a t ih =>
    match i, j with
    | 0, 0 => exact absurd rfl h
    | 0, k + 1 => rfl
    | m + 1, 0 => rfl
    | m + 1, k + 1 =>
      rw [List.set_cons_succ, List.getD_cons_succ, List.getD_cons_succ]
      exact ih m k (by omega)

theorem chosenCells_length (placed : List (Option Cand)) :
    (chosenCells placed).length = placed.length := by
  unfold chosenCells
  rw [List.length_map]

theorem chosenCells_getD (placed : List (Option Cand)) (i : ℕ) (h : i < placed.length) :
    (chosenCells placed).getD i ∅ = ((placed.getD i none).getD ⟨∅, ∅⟩).cells := by
  induction placed generalizing i with
  | nil => simp at h
  | cons a t ih =>
    match i with
    | 0 => rfl
    | k + 1 =>
      simp only [List.length_cons] at h
      unfold chosenCells at *
      rw [List.map_cons, List.getD_cons_succ, List.getD_cons_succ]
      exact ih k (by omega)

theorem chosenCells_getElem (placed : List (Option Cand)) (i : ℕ)
    (h : i < (chosenCells placed).length) :
    (chosenCells placed)[i] = ((placed.getD i none).getD ⟨∅, ∅⟩).cells := by
  have h2 : i < placed.length := by
    rw [chosenCells_length] at h
    exact h
  rw [← chosenCells_getD placed i h2]
  rw [List.getD_eq_getElem?_getD, List.getElem?_eq_getElem h]
  rfl

/-- A valid recorded solution: one candidate cell set per dark piece, stars
covered, pairwise cell-disjoint, pairwise not edge-adjacent, and a single
corner-connected component. -/
def GoodSol (P : SolveParams) (sol : List Shape) : Prop :=
  sol.length = P.allCands.length ∧
  (∀ i, i < sol.length → sol.getD i ∅ ∈ (P.allCands.getD i []).map Cand.cells) ∧
  P.stars ⊆ unionShapes sol ∧
  List.Pairwise (fun a b => a ∩ b = ∅) sol ∧
  List.Pairwise (fun a b => ¬ edgeAdjacent a b) sol ∧
  (corner_connected_components sol).length = 1

/-- Invariant tying a solver state to the suffix `rest` of the piece order
still to be assigned. -/
structure SearchInv (P : SolveParams) (rest : List ℕ) (st : SolveState) : Prop where
  len_eq : st.placed.length = P.allCands.length
  rest_lt : ∀ j ∈ rest, j < st.placed.length
  none_iff : ∀ i, i < st.placed.length → (st.placed.getD i none = none ↔ i ∈ rest)
  mem_pool : ∀ i c, st.placed.getD i none = some c → c ∈ P.allCands.getD i []
  usedCells_eq : ∀ x, x ∈ st.usedCells ↔
    ∃ i c, st.placed.getD i none = some c ∧ x ∈ c.cells
  usedOrth_eq : ∀ x, x ∈ st.usedOrth ↔
    ∃ i c, st.placed.getD i none = some c ∧ x ∈ c.orth_adj
  pair_disj : ∀ i j c c', i ≠ j → st.placed.getD i none = some c →
    st.placed.getD j none = some c' → c.cells ∩ c'.cells = ∅
  pair_nonadj : ∀ i j c c', i ≠ j → st.placed.getD i none = some c →
    st.placed.getD j none = some c' → ¬ edgeAdjacent c.cells c'.cells
  sols_good : ∀ sol ∈ st.solutions, GoodSol P sol

/-- The parts of the state `backtrack` leaves unchanged on return. -/
def Frame (st st' : SolveState) : Prop :=
  st'.placed = st.placed ∧ st'.usedCells = st.usedCells ∧ st'.usedOrth = st.usedOrth


theorem leafCheck_sound (P : SolveParams) (st : SolveState) (hinv : SearchInv P [] st) :
    Frame st (leafCheck P st) ∧ ∀ sol ∈ (leafCheck P st).solutions, GoodSol P sol := by
  unfold leafCheck
  split
  · exact ⟨⟨rfl, rfl, rfl⟩, hinv.sols_good⟩
  · split
    · exact ⟨⟨rfl, rfl, rfl⟩, hinv.sols_good⟩
    · rename_i hstars hcomps
      refine ⟨⟨rfl, rfl, rfl⟩, ?_⟩
      intro sol hsol
      simp only [List.mem_append, List.mem_singleton] at hsol
      rcases hsol with hold | rfl
      · exact hinv.sols_good sol hold
      · have hassigned : ∀ i, i < st.placed.length → ∃ c,
            st.placed.getD i none = some c := by
          intro i hi
          rcases hopt : st.placed.getD i none with _ | c
          · exact absurd ((hinv.none_iff i hi).mp hopt) (List.not_mem_nil i)
          · exact ⟨c, rfl⟩
        refine ⟨?_, ?_, ?_, ?_, ?_, ?_⟩
        · rw [chosenCells_length]
          exact hinv.len_eq
        · intro i hi
          rw [chosenCells_length] at hi
          obtain ⟨c, hc⟩ := hassigned i hi
          rw [chosenCells_getD st.placed i hi, hc]
          exact List.mem_map.mpr ⟨c, hinv.mem_pool i c hc, rfl⟩
        · rw [not_not] at hstars
          exact hstars
        · rw [List.pairwise_iff_getElem]
          intro i j hi hj hij
          rw [chosenCells_length] at hi hj
          obtain ⟨ci, hci⟩ := hassigned i hi
          obtain ⟨cj, hcj⟩ := hassigned j hj
          rw [chosenCells_getElem st.placed i (by rw [chosenCells_length]; exact hi),
            chosenCells_getElem st.placed j (by rw [chosenCells_length]; exact hj), hci, hcj]
          exact hinv.pair_disj i j ci cj (by omega) hci hcj
        · rw [List.pairwise_iff_getElem]
          intro i j hi hj hij
          rw [chosenCells_length] at hi hj
          obtain ⟨ci, hci⟩ := hassigned i hi
          obtain ⟨cj, hcj⟩ := hassigned j hj
          rw [chosenCells_getElem st.placed i (by rw [chosenCells_length]; exact hi),
            chosenCells_getElem st.placed j (by rw [chosenCells_length]; exact hj), hci, hcj]
          exact hinv.pair_nonadj i j ci cj (by omega) hci hcj
        · rw [not_not] at hcomps
          exact hcomps

theorem searchInv_nodes (P : SolveParams) (rest : List ℕ) (st : SolveState)
    (hinv : SearchInv P rest st) (k : ℕ) :
    SearchInv P rest { st with nodes := k } :=
  ⟨hinv.len_eq, hinv.rest_lt, hinv.none_iff, hinv.mem_pool, hinv.usedCells_eq,
   hinv.usedOrth_eq, hinv.pair_disj, hinv.pair_nonadj, hinv.sols_good⟩



theorem searchInv_place (P : SolveParams)
    (HP : ∀ i : ℕ, ∀ c ∈ P.allCands.getD i [], c.orth_adj = orthHalo c.cells)
    {rest2 : List ℕ} {i : ℕ} {st : SolveState} {c : Cand}
    (hinv : SearchInv P (i :: rest2) st) (hi2 : i ∉ rest2)
    (hcpool : c ∈ P.allCands.getD i [])
    (hdisj : c.cells ∩ st.usedCells = ∅)
    (hhalo : ¬ ∃ x ∈ c.cells, x ∈ st.usedOrth) :
    SearchInv P rest2
      { placed := st.placed.set i (some c),
        usedCells := st.usedCells ∪ c.cells,
        usedOrth := st.usedOrth ∪ c.orth_adj,
        solutions := st.solutions,
        nodes := st.nodes } := by
  have hilen : i < st.placed.length := hinv.rest_lt i (List.mem_cons_self i rest2)
  have hinone : st.placed.getD i none = none :=
    (hinv.none_iff i hilen).mpr (List.mem_cons_self i rest2)
  have hsubc : ∀ x ∈ st.usedCells, x ∉ c.cells := by
    intro x hx hxc
    have hmem : x ∈ c.cells ∩ st.usedCells := Finset.mem_inter.mpr ⟨hxc, hx⟩
    rw [hdisj] at hmem
    simp at hmem
  have hnoorth : ∀ x ∈ c.cells, x ∉ st.usedOrth := fun x hx hxo => hhalo ⟨x, hx, hxo⟩
  refine ⟨?_, ?_, ?_, ?_, ?_, ?_, ?_, ?_, ?_⟩
  · show (st.placed.set i (some c)).length = P.allCands.length
    rw [List.length_set]
    exact hinv.len_eq
  · intro j hj
    show j < (st.placed.set i (some c)).length
    rw [List.length_set]
    exact hinv.rest_lt j (List.mem_cons_of_mem i hj)
  · intro j hj
    replace hj : j < (st.placed.set i (some c)).length := hj
    rw [List.length_set] at hj
    show (st.placed.set i (some c)).getD j none = none ↔ j ∈ rest2
    by_cases hji : j = i
    · subst hji
      rw [list_getD_set_same st.placed j (some c) hj]
      simp only [reduceCtorEq, false_iff]
      exact fun hmem => hi2 hmem
    · rw [list_getD_set_ne st.placed i j (some c) hji, hinv.none_iff j hj]
      constructor
      · intro hmem
        rcases List.mem_cons.mp hmem with rfl | hmem'
        · exact absurd rfl hji
        · exact hmem'
      · exact fun hmem => List.mem_cons_of_mem i hmem
  · intro j c' hj
    replace hj : (st.placed.set i (some c)).getD j none = some c' := hj
    by_cases hji : j = i
    · subst hji
      rw [list_getD_set_same st.placed j (some c) hilen] at hj
      obtain rfl := Option.some.inj hj
      exact hcpool
    · rw [list_getD_set_ne st.placed i j (some c) hji] at hj
      exact hinv.mem_pool j c' hj
  · intro x
    show x ∈ st.usedCells ∪ c.cells ↔ _
    simp only [Finset.mem_union]
    constructor
    · rintro (hx | hx)
      · obtain ⟨j, c', hj, hxc⟩ := (hinv.usedCells_eq x).mp hx
        have hji : j ≠ i := by
          intro h
          subst h
          rw [hinone] at hj
          exact Option.noConfusion hj
        exact ⟨j, c', by
          show (st.placed.set i (some c)).getD j none = some c'
          rw [list_getD_set_ne st.placed i j (some c) hji]; exact hj, hxc⟩
      · exact ⟨i, c, list_getD_set_same st.placed i (some c) hilen, hx⟩
    · rintro ⟨j, c', hj, hxc⟩
      replace hj : (st.placed.set i (some c)).getD j none = some c' := hj
      by_cases hji : j = i
      · subst hji
        rw [list_getD_set_same st.placed j (some c) hilen] at hj
        obtain rfl := Option.some.inj hj
        exact Or.inr hxc
      · rw [list_getD_set_ne st.placed i j (some c) hji] at hj
        exact Or.inl ((hinv.usedCells_eq x).mpr ⟨j, c', hj, hxc⟩)
  · intro x
    show x ∈ st.usedOrth ∪ c.orth_adj ↔ _
    simp only [Finset.mem_union]
    constructor
    · rintro (hx | hx)
      · obtain ⟨j, c', hj, hxc⟩ := (hinv.usedOrth_eq x).mp hx
        have hji : j ≠ i := by
          intro h
          subst h
          rw [hinone] at hj
          exact Option.noConfusion hj
        exact ⟨j, c', by
          show (st.placed.set i (some c)).getD j none = some c'
          rw [list_getD_set_ne st.placed i j (some c) hji]; exact hj, hxc⟩
      · exact ⟨i, c, list_getD_set_same st.placed i (some c) hilen, hx⟩
    · rintro ⟨j, c', hj, hxc⟩
      replace hj : (st.placed.set i (some c)).getD j none = some c' := hj
      by_cases hji : j = i
      · subst hji
        rw [list_getD_set_same st.placed j (some c) hilen] at hj
        obtain rfl := Option.some.inj hj
        exact Or.inr hxc
      · rw [list_getD_set_ne st.placed i j (some c) hji] at hj
        exact Or.inl ((hinv.usedOrth_eq x).mpr ⟨j, c', hj, hxc⟩)
  · intro j k c' c'' hjk hj hk
    replace hj : (st.placed.set i (some c)).getD j none = some c' := hj
    replace hk : (st.placed.set i (some c)).getD k none = some c'' := hk
    by_cases hji : j = i
    · subst hji
      rw [list_getD_set_same st.placed j (some c) hilen] at hj
      obtain rfl := Option.some.inj hj
      rw [list_getD_set_ne st.placed j k (some c) (by omega)] at hk
      rw [Finset.eq_empty_iff_forall_not_mem]
      intro x hx
      rcases Finset.mem_inter.mp hx with ⟨hxc, hxc''⟩
      exact hsubc x ((hinv.usedCells_eq x).mpr ⟨k, c'', hk, hxc''⟩) hxc
    · rw [list_getD_set_ne st.placed i j (some c) hji] at hj
      by_cases hki : k = i
      · subst hki
        rw [list_getD_set_same st.placed k (some c) hilen] at hk
        obtain rfl := Option.some.inj hk
        rw [Finset.eq_empty_iff_forall_not_mem]
        intro x hx
        rcases Finset.mem_inter.mp hx with ⟨hxc', hxc⟩
        exact hsubc x ((hinv.usedCells_eq x).mpr ⟨j, c', hj, hxc'⟩) hxc
      · rw [list_getD_set_ne st.placed i k (some c) hki] at hk
        exact hinv.pair_disj j k c' c'' hjk hj hk
  · intro j k c' c'' hjk hj hk
    replace hj : (st.placed.set i (some c)).getD j none = some c' := hj
    replace hk : (st.placed.set i (some c)).getD k none = some c'' := hk
    by_cases hji : j = i
    · subst hji
      rw [list_getD_set_same st.placed j (some c) hilen] at hj
      obtain rfl := Option.some.inj hj
      rw [list_getD_set_ne st.placed j k (some c) (by omega)] at hk
      intro hadj
      rcases edgeAdjacent_iff_meets_halo.mp hadj with ⟨x, hxc, hxhalo⟩
      have hx : x ∈ c''.orth_adj := by
        rw [HP k c'' (hinv.mem_pool k c'' hk)]
        exact hxhalo
      exact hnoorth x hxc ((hinv.usedOrth_eq x).mpr ⟨k, c'', hk, hx⟩)
    · rw [list_getD_set_ne st.placed i j (some c) hji] at hj
      by_cases hki : k = i
      · subst hki
        rw [list_getD_set_same st.placed k (some c) hilen] at hk
        obtain rfl := Option.some.inj hk
        intro hadj
        rcases edgeAdjacent_iff_meets_halo.mp (edgeAdjacent_comm.mp hadj) with ⟨x, hxc, hxhalo⟩
        have hx : x ∈ c'.orth_adj := by
          rw [HP j c' (hinv.mem_pool j c' hj)]
          exact hxhalo
        exact hnoorth x hxc ((hinv.usedOrth_eq x).mpr ⟨j, c', hj, hx⟩)
      · rw [list_getD_set_ne st.placed i k (some c) hki] at hk
        exact hinv.pair_nonadj j k c' c'' hjk hj hk
  · exact hinv.sols_good


theorem tryCands_sound (P : SolveParams)
    (HP : ∀ i : ℕ, ∀ c ∈ P.allCands.getD i [], c.orth_adj = orthHalo c.cells)
    (rest2 : List ℕ) (bt : SolveState → SolveState)
    (HBT : ∀ st, SearchInv P rest2 st →
      Frame st (bt st) ∧ ∀ sol ∈ (bt st).solutions, GoodSol P sol)
    (i : ℕ) (hi2 : i ∉ rest2) :
    ∀ (cs : List Cand), (∀ c ∈ cs, c ∈ P.allCands.getD i []) →
      ∀ st, SearchInv P (i :: rest2) st →
        Frame st (tryCandsGo P bt i cs st) ∧
        ∀ sol ∈ (tryCandsGo P bt i cs st).solutions, GoodSol P sol := by
  intro cs
  induction cs with
  | nil =>
    intro _ st hinv
    exact ⟨⟨rfl, rfl, rfl⟩, hinv.sols_good⟩
  | cons c cs ih =>
    intro hcs st hinv
    have hilen : i < st.placed.length := hinv.rest_lt i (List.mem_cons_self i rest2)
    have hinone : st.placed.getD i none = none :=
      (hinv.none_iff i hilen).mpr (List.mem_cons_self i rest2)
    have hcpool : c ∈ P.allCands.getD i [] := hcs c (List.mem_cons_self c cs)
    have hcs' : ∀ c' ∈ cs, c' ∈ P.allCands.getD i [] :=
      fun c' hc' => hcs c' (List.mem_cons_of_mem c hc')
    rw [tryCandsGo]
    split
    · exact ih hcs' st hinv
    · split
      · exact ih hcs' st hinv
      · rename_i hdisj hhalo
        rw [not_not] at hdisj
        have hinvA := searchInv_place P HP hinv hi2 hcpool hdisj hhalo
        obtain ⟨⟨hfp, hfc, hfo⟩, hsols1⟩ := HBT _ hinvA
        dsimp only
        have hst2placed :
            (bt { placed := st.placed.set i (some c),
                  usedCells := st.usedCells ∪ c.cells,
                  usedOrth := st.usedOrth ∪ c.orth_adj,
                  solutions := st.solutions,
                  nodes := st.nodes }).placed.set i none = st.placed := by
          rw [hfp]
          show (st.placed.set i (some c)).set i none = st.placed
          rw [List.set_set]
          exact list_set_none_self st.placed i hinone
        have hinv2 : SearchInv P (i :: rest2)
            { placed := (bt { placed := st.placed.set i (some c),
                              usedCells := st.usedCells ∪ c.cells,
                              usedOrth := st.usedOrth ∪ c.orth_adj,
                              solutions := st.solutions,
                              nodes := st.nodes }).placed.set i none,
              usedCells := st.usedCells,
              usedOrth := st.usedOrth,
              solutions := (bt { placed := st.placed.set i (some c),
                                 usedCells := st.usedCells ∪ c.cells,
                                 usedOrth := st.usedOrth ∪ c.orth_adj,
                                 solutions := st.solutions,
                                 nodes := st.nodes }).solutions,
              nodes := (bt { placed := st.placed.set i (some c),
                             usedCells := st.usedCells ∪ c.cells,
                             usedOrth := st.usedOrth ∪ c.orth_adj,
                             solutions := st.solutions,
                             nodes := st.nodes }).nodes } := by
          rw [hst2placed]
          exact ⟨hinv.len_eq, hinv.rest_lt, hinv.none_iff, hinv.mem_pool,
            hinv.usedCells_eq, hinv.usedOrth_eq, hinv.pair_disj, hinv.pair_nonadj, hsols1⟩
        split
        · exact ⟨⟨hst2placed, rfl, rfl⟩, hsols1⟩
        · split
          · exact ⟨⟨hst2placed, rfl, rfl⟩, hsols1⟩
          · obtain ⟨⟨hfp2, hfc2, hfo2⟩, hsols2⟩ := ih hcs' _ hinv2
            refine ⟨⟨?_, ?_, ?_⟩, hsols2⟩
            · rw [hfp2]
              exact hst2placed
            · exact hfc2
            · exact hfo2

theorem backtrack_sound (P : SolveParams)
    (HP : ∀ i : ℕ, ∀ c ∈ P.allCands.getD i [], c.orth_adj = orthHalo c.cells) :
    ∀ (rest : List ℕ), rest.Nodup → ∀ st, SearchInv P rest st →
      Frame st (backtrack P rest st) ∧
      ∀ sol ∈ (backtrack P rest st).solutions, GoodSol P sol := by
  intro rest
  induction rest with
  | nil =>
    intro _ st hinv
    rw [backtrack]
    split
    · exact ⟨⟨rfl, rfl, rfl⟩, hinv.sols_good⟩
    · split
      · exact ⟨⟨rfl, rfl, rfl⟩, hinv.sols_good⟩
      · exact leafCheck_sound P _ (searchInv_nodes P [] st hinv (st.nodes + 1))
  | cons i rest2 ih =>
    intro hnd st hinv
    have hi2 : i ∉ rest2 := (List.nodup_cons.mp hnd).1
    have hnd2 : rest2.Nodup := (List.nodup_cons.mp hnd).2
    rw [backtrack]
    split
    · exact ⟨⟨rfl, rfl, rfl⟩, hinv.sols_good⟩
    · split
      · exact ⟨⟨rfl, rfl, rfl⟩, hinv.sols_good⟩
      · exact tryCands_sound P HP rest2 (backtrack P rest2) (ih hnd2) i hi2
          (P.allCands.getD i []) (fun c hc => hc) _
          (searchInv_nodes P (i :: rest2) st hinv (st.nodes + 1))


theorem mem_enumerate {dark : Shape} {name : String} {gw gh : ℤ} {excl : Shape} {c : Cand} :
    c ∈ enumerate_candidates_for_dark_fast dark name gw gh excl ↔
    ∃ var ∈ SHAPE_VARIANTS name, ∃ tx ty : ℤ,
      0 ≤ tx ∧ tx ≤ gw - maxX var - 1 ∧ 0 ≤ ty ∧ ty ≤ gh - maxY var - 1 ∧
      c = ⟨translate var tx ty, orthHalo (translate var tx ty)⟩ ∧
      translate var tx ty ∩ excl = ∅ ∧ edgeAdjacent (translate var tx ty) dark := by
  unfold enumerate_candidates_for_dark_fast
  rw [List.mem_flatMap]
  constructor
  · rintro ⟨var, hvar, hc⟩
    split at hc
    · simp at hc
    · rename_i hgrid
      rw [List.mem_flatMap] at hc
      obtain ⟨tx, htx, hc⟩ := hc
      rw [List.mem_filterMap] at hc
      obtain ⟨ty, hty, hc⟩ := hc
      rw [mem_intRange] at htx hty
      split at hc
      · exact Option.noConfusion hc
      · split at hc
        · exact Option.noConfusion hc
        · rename_i hover htouch
          rw [not_not] at hover htouch
          obtain rfl := Option.some.inj hc
          exact ⟨var, hvar, tx, ty, htx.1, by omega, hty.1, by omega, rfl, hover, htouch⟩
  · rintro ⟨var, hvar, tx, ty, htx0, htx1, hty0, hty1, rfl, hover, htouch⟩
    refine ⟨var, hvar, ?_⟩
    rw [if_neg (by omega)]
    rw [List.mem_flatMap]
    refine ⟨tx, mem_intRange.mpr ⟨htx0, by omega⟩, ?_⟩
    rw [List.mem_filterMap]
    refine ⟨ty, mem_intRange.mpr ⟨hty0, by omega⟩, ?_⟩
    rw [if_neg (not_not.mpr hover), if_neg (not_not.mpr htouch)]

theorem mem_dedupByCells_sub {cs : List Cand} {c : Cand} (h : c ∈ dedupByCells cs) :
    c ∈ cs := by
  unfold dedupByCells at h
  suffices hgen : ∀ (l : List Cand) (acc : List Cand),
      c ∈ l.foldl (fun acc c => if acc.any (fun c2 => decide (c2.cells = c.cells)) then acc
        else acc ++ [c]) acc → c ∈ acc ∨ c ∈ l by
    rcases hgen cs [] h with h' | h'
    · simp at h'
    · exact h'
  intro l
  induction l with
  | nil => intro acc h'; exact Or.inl h'
  | cons a t ih =>
    intro acc h'
    rw [List.foldl_cons] at h'
    split at h'
    · rcases ih acc h' with h'' | h''
      · exact Or.inl h''
      · exact Or.inr (List.mem_cons_of_mem a h'')
    · rcases ih (acc ++ [a]) h' with h'' | h''
      · rcases List.mem_append.mp h'' with h3 | h3
        · exact Or.inl h3
        · rcases List.mem_singleton.mp h3 with rfl
          exact Or.inr (List.mem_cons_self _ _)
      · exact Or.inr (List.mem_cons_of_mem a h'')

theorem candidate_pools_length (gw gh : ℤ) (darks : List Shape) :
    (candidate_pools gw gh darks).length = darks.length := by
  unfold candidate_pools
  rw [List.length_map]

theorem mem_pools_shape {gw gh : ℤ} {darks : List Shape} {i : ℕ} {c : Cand}
    (h : c ∈ (candidate_pools gw gh darks).getD i []) :
    ∃ name ∈ names_for_size ((darks.getD i ∅).card), ∃ var ∈ SHAPE_VARIANTS name,
      ∃ tx ty : ℤ,
        0 ≤ tx ∧ tx ≤ gw - maxX var - 1 ∧ 0 ≤ ty ∧ ty ≤ gh - maxY var - 1 ∧
        c = ⟨translate var tx ty, orthHalo (translate var tx ty)⟩ ∧
        translate var tx ty ∩ unionShapes darks = ∅ ∧
        edgeAdjacent (translate var tx ty) (darks.getD i ∅) := by
  unfold candidate_pools at h
  by_cases hi : i < darks.length
  · rw [List.getD_eq_getElem?_getD, List.getElem?_map,
      List.getElem?_eq_getElem hi] at h
    simp only [Option.map_some', Option.getD_some] at h
    have h2 := mem_dedupByCells_sub h
    rw [List.mem_flatMap] at h2
    obtain ⟨name, hname, hc⟩ := h2
    rw [mem_enumerate] at hc
    obtain ⟨var, hvar, tx, ty, h1, h2, h3, h4, rfl, h5, h6⟩ := hc
    have hgetD : darks.getD i ∅ = darks[i] := by
      rw [List.getD_eq_getElem?_getD, List.getElem?_eq_getElem hi]
      rfl
    rw [hgetD]
    exact ⟨name, hname, var, hvar, tx, ty, h1, h2, h3, h4, rfl, h5, h6⟩
  · rw [List.getD_eq_getElem?_getD, List.getElem?_map,
      List.getElem?_eq_none (show darks.length ≤ i by omega)] at h
    simp at h

theorem pools_halo (gw gh : ℤ) (darks : List Shape) :
    ∀ i : ℕ, ∀ c ∈ (candidate_pools gw gh darks).getD i [],
      c.orth_adj = orthHalo c.cells := by
  intro i c hc
  obtain ⟨name, _, var, _, tx, ty, _, _, _, _, rfl, _, _⟩ := mem_pools_shape hc
  rfl


theorem getD_replicate_none (n i : ℕ) :
    (List.replicate n (none : Option Cand)).getD i none = none := by
  induction n generalizing i with
  | zero => rfl
  | succ m ih =>
    match i with
    | 0 => rfl
    | k + 1 =>
      rw [List.replicate_succ, List.getD_cons_succ]
      exact ih k

theorem backtrack_leaf_records (P : SolveParams) (st : SolveState)
    (h1 : ¬ P.maxNodes < st.nodes + 1) (h2 : ¬ P.maxSolutions ≤ st.solutions.length)
    (h3 : P.stars ⊆ unionShapes (chosenCells st.placed))
    (h4 : (corner_connected_components (chosenCells st.placed)).length = 1) :
    (backtrack P [] st).solutions = st.solutions ++ [chosenCells st.placed] := by
  rw [backtrack, if_neg h1, if_neg h2, leafCheck,
    if_neg (not_not.mpr h3), if_neg (not_not.mpr h4)]

theorem solve_sound (grid_w grid_h : ℤ) (dark_pieces : List Shape) (stars : Finset Cell)
    (ms mn : ℕ) :
    ∀ sol ∈ (solve_puzzle_fast grid_w grid_h dark_pieces stars ms mn).2,
      GoodSol ⟨candidate_pools grid_w grid_h dark_pieces, stars, ms, mn⟩ sol := by
  intro sol hsol
  unfold solve_puzzle_fast at hsol
  dsimp only at hsol
  split at hsol
  · simp at hsol
  · set P : SolveParams := ⟨candidate_pools grid_w grid_h dark_pieces, stars, ms, mn⟩
      with hP
    set order := sortByKey
      (fun i => ((candidate_pools grid_w grid_h dark_pieces).getD i []).length)
      (List.range dark_pieces.length) with horder
    have hperm : order.Perm (List.range dark_pieces.length) := sortByKey_perm _ _
    have hnd : order.Nodup := hperm.nodup_iff.mpr (List.nodup_range _)
    have hmemo : ∀ i, i ∈ order ↔ i < dark_pieces.length := by
      intro i
      rw [hperm.mem_iff, List.mem_range]
    have hinv : SearchInv P order
        ⟨List.replicate dark_pieces.length none, ∅, ∅, [], 0⟩ := by
      refine ⟨?_, ?_, ?_, ?_, ?_, ?_, ?_, ?_, ?_⟩
      · show (List.replicate dark_pieces.length (none : Option Cand)).length = _
        rw [List.length_replicate, hP]
        exact (candidate_pools_length grid_w grid_h dark_pieces).symm
      · intro j hj
        show j < (List.replicate dark_pieces.length (none : Option Cand)).length
        rw [List.length_replicate]
        exact (hmemo j).mp hj
      · intro i hi
        replace hi : i < (List.replicate dark_pieces.length (none : Option Cand)).length := hi
        rw [List.length_replicate] at hi
        rw [getD_replicate_none]
        simp only [true_iff]
        exact (hmemo i).mpr hi
      · intro i c hc
        rw [getD_replicate_none] at hc
        exact Option.noConfusion hc
      · intro x
        constructor
        · intro hx
          simp at hx
        · rintro ⟨i, c, hc, -⟩
          rw [getD_replicate_none] at hc
          exact Option.noConfusion hc
      · intro x
        constructor
        · intro hx
          simp at hx
        · rintro ⟨i, c, hc, -⟩
          rw [getD_replicate_none] at hc
          exact Option.noConfusion hc
      · intro i j c c' _ hc
        rw [getD_replicate_none] at hc
        exact Option.noConfusion hc
      · intro i j c c' _ hc
        rw [getD_replicate_none] at hc
        exact Option.noConfusion hc
      · intro sol hsol
        simp at hsol
    have hHP : ∀ i : ℕ, ∀ c ∈ P.allCands.getD i [], c.orth_adj = orthHalo c.cells :=
      pools_halo grid_w grid_h dark_pieces
    obtain ⟨-, hgood⟩ := backtrack_sound P hHP order hnd _ hinv
    exact hgood sol hsol

/-- C2: every solution recorded by `solve_puzzle_fast` assigns exactly one
candidate from its pool to every dark piece and satisfies the full leaf
predicate — star coverage, pairwise cell-disjointness, no two chosen
candidates edge-adjacent, and exactly one corner-connected component (both
as computed by `corner_connected_components` and as mutual reachability
under the corner-adjacency relation); conversely, at a complete assignment
reached within the node and solution budgets, the search records the
assignment iff its star-coverage and single-component checks pass. -/
theorem C2_backtrack_solutions_valid :
    (∀ (grid_w grid_h : ℤ) (dark_pieces : List Shape) (stars : Finset Cell) (ms mn : ℕ),
      ∀ sol ∈ (solve_puzzle_fast grid_w grid_h dark_pieces stars ms mn).2,
        sol.length = dark_pieces.length ∧
        (∀ i, i < sol.length →
          sol.getD i ∅ ∈
            ((candidate_pools grid_w grid_h dark_pieces).getD i []).map Cand.cells) ∧
        stars ⊆ unionShapes sol ∧
        List.Pairwise (fun a b => a ∩ b = ∅) sol ∧
        List.Pairwise (fun a b => ¬ edgeAdjacent a b) sol ∧
        (corner_connected_components sol).length = 1 ∧
        (∀ i j, i < sol.length → j < sol.length →
          Relation.ReflTransGen (cornerRel sol) i j)) ∧
    (∀ (P : SolveParams) (st : SolveState),
      ¬ P.maxNodes < st.nodes + 1 → ¬ P.maxSolutions ≤ st.solutions.length →
      P.stars ⊆ unionShapes (chosenCells st.placed) →
      (corner_connected_components (chosenCells st.placed)).length = 1 →
      (backtrack P [] st).solutions = st.solutions ++ [chosenCells st.placed]) := by
  constructor
  · intro grid_w grid_h dark_pieces stars ms mn sol hsol
    obtain ⟨hlen, hmem, hstars, hdisj, hnonadj, hcomps⟩ :=
      solve_sound grid_w grid_h dark_pieces stars ms mn sol hsol
    refine ⟨?_, hmem, hstars, hdisj, hnonadj, hcomps, ?_⟩
    · rw [hlen]
      exact candidate_pools_length grid_w grid_h dark_pieces
    · intro i j hi hj
      exact components_one_all_pairs hcomps i j hi hj
  · exact backtrack_leaf_records


/-- Witness for C2: the solver on a 2-by-2 grid with one dark monomino at
(1,0) and a star at (0,0) records the single solution [{(0,0)}], and the
claim's conclusions hold of it; the leaf-recording direction is instanced
at a concrete one-piece state. -/
theorem C2_backtrack_solutions_valid_witness :
    ({((0 : ℤ), (0 : ℤ))} ⊆
      unionShapes [({((0 : ℤ), (0 : ℤ))} : Shape)]) ∧
    ((backtrack ⟨[], {((0 : ℤ), (0 : ℤ))}, 2, 20000⟩ []
        ⟨[some ⟨{((0 : ℤ), (0 : ℤ))}, orthHalo {((0 : ℤ), (0 : ℤ))}⟩],
          {((0 : ℤ), (0 : ℤ))}, ∅, [], 0⟩).solutions =
      [] ++ [chosenCells [some ⟨{((0 : ℤ), (0 : ℤ))},
        orthHalo {((0 : ℤ), (0 : ℤ))}⟩]]) :=
  ⟨(C2_backtrack_solutions_valid.1 2 2 [{((1 : ℤ), (0 : ℤ))}] {((0 : ℤ), (0 : ℤ))} 2 20000
      [{((0 : ℤ), (0 : ℤ))}] (by decide)).2.2.1,
   C2_backtrack_solutions_valid.2 ⟨[], {((0 : ℤ), (0 : ℤ))}, 2, 20000⟩
     ⟨[some ⟨{((0 : ℤ), (0 : ℤ))}, orthHalo {((0 : ℤ), (0 : ℤ))}⟩],
       {((0 : ℤ), (0 : ℤ))}, ∅, [], 0⟩
     (by decide) (by decide) (by decide) (by decide)⟩


theorem intRange_nodup (n : ℤ) : (intRange n).Nodup := by
  unfold intRange
  refine List.Nodup.map ?_ (List.nodup_range _)
  intro a b h
  rw [Int.ofNat_eq_natCast, Int.ofNat_eq_natCast] at h
  exact_mod_cast h

theorem mem_rotations {s v : Shape} :
    v ∈ rotations_and_reflections s ↔
      ∃ fx fy : Bool, ∃ rot, rot ∈ List.range 4 ∧
        v = normalize (s.image (transformCell fx fy rot)) := by
  unfold rotations_and_reflections
  rw [List.mem_dedup, List.mem_flatMap]
  constructor
  · rintro ⟨fx, hfx, hv⟩
    rw [List.mem_flatMap] at hv
    obtain ⟨fy, hfy, hv⟩ := hv
    rw [List.mem_map] at hv
    obtain ⟨rot, hrot, rfl⟩ := hv
    exact ⟨fx, fy, rot, hrot, rfl⟩
  · rintro ⟨fx, fy, rot, hrot, rfl⟩
    refine ⟨fx, by simp, ?_⟩
    rw [List.mem_flatMap]
    refine ⟨fy, by simp, ?_⟩
    rw [List.mem_map]
    exact ⟨rot, hrot, rfl⟩

theorem variants_normalized {name : String} {v : Shape} (h : v ∈ SHAPE_VARIANTS name) :
    normalize v = v := by
  unfold SHAPE_VARIANTS at h
  obtain ⟨fx, fy, rot, -, rfl⟩ := mem_rotations.mp h
  exact normalize_idem _

theorem variants_min_zero {name : String} {v : Shape} (h : v ∈ SHAPE_VARIANTS name)
    (hne : v.Nonempty) : minX v = 0 ∧ minY v = 0 := by
  have hv := variants_normalized h
  rw [← hv]
  rw [← hv] at hne
  exact ⟨minX_normalize (normalize_nonempty.mp hne), minY_normalize (normalize_nonempty.mp hne)⟩

theorem edgeAdjacent_nonempty {a b : Shape} (h : edgeAdjacent a b) : a.Nonempty := by
  obtain ⟨c, hc, -⟩ := h
  exact ⟨c, hc⟩

theorem minX_mem {s : Shape} (h : s.Nonempty) : ∃ c ∈ s, c.1 = minX s := by
  rw [minX, dif_pos h]
  have hmem := Finset.min'_mem (s.image Prod.fst) (h.image _)
  rcases Finset.mem_image.mp hmem with ⟨c, hc, hc2⟩
  exact ⟨c, hc, hc2⟩

theorem maxX_mem {s : Shape} (h : s.Nonempty) : ∃ c ∈ s, c.1 = maxX s := by
  rw [maxX, dif_pos h]
  have hmem := Finset.max'_mem (s.image Prod.fst) (h.image _)
  rcases Finset.mem_image.mp hmem with ⟨c, hc, hc2⟩
  exact ⟨c, hc, hc2⟩

theorem minY_mem {s : Shape} (h : s.Nonempty) : ∃ c ∈ s, c.2 = minY s := by
  rw [minY, dif_pos h]
  have hmem := Finset.min'_mem (s.image Prod.snd) (h.image _)
  rcases Finset.mem_image.mp hmem with ⟨c, hc, hc2⟩
  exact ⟨c, hc, hc2⟩

theorem maxY_mem {s : Shape} (h : s.Nonempty) : ∃ c ∈ s, c.2 = maxY s := by
  rw [maxY, dif_pos h]
  have hmem := Finset.max'_mem (s.image Prod.snd) (h.image _)
  rcases Finset.mem_image.mp hmem with ⟨c, hc, hc2⟩
  exact ⟨c, hc, hc2⟩

theorem normalize_translate_normalized {v p : Shape} {tx ty : ℤ}
    (hv : normalize v = v) (hp : p = translate v tx ty) : normalize p = v := by
  rw [hp, normalize_translate, hv]

theorem enumerate_cells_iff {dark : Shape} {name : String} {gw gh : ℤ} {excl : Shape}
    {p : Shape} :
    p ∈ (enumerate_candidates_for_dark_fast dark name gw gh excl).map Cand.cells ↔
      ∃ var ∈ SHAPE_VARIANTS name, ∃ tx ty : ℤ, p = translate var tx ty ∧
        inside gw gh p ∧ p ∩ excl = ∅ ∧ edgeAdjacent p dark := by
  rw [List.mem_map]
  constructor
  · rintro ⟨c, hc, rfl⟩
    obtain ⟨var, hvar, tx, ty, htx0, htx1, hty0, hty1, rfl, hover, htouch⟩ :=
      mem_enumerate.mp hc
    refine ⟨var, hvar, tx, ty, rfl, ?_, hover, htouch⟩
    have hne : (translate var tx ty).Nonempty := edgeAdjacent_nonempty htouch
    have hvne : var.Nonempty := translate_nonempty.mp hne
    obtain ⟨hminx, hminy⟩ := variants_min_zero hvar hvne
    intro d hd
    rcases mem_translate.mp hd with ⟨c0, hc0, rfl⟩
    have h1 : minX var ≤ c0.1 := minX_le_of_mem hc0
    have h2 : c0.1 ≤ maxX var := le_maxX_of_mem hc0
    have h3 : minY var ≤ c0.2 := minY_le_of_mem hc0
    have h4 : c0.2 ≤ maxY var := le_maxY_of_mem hc0
    constructor
    · simp only
      omega
    · refine ⟨by simp only; omega, by simp only; omega, by simp only; omega⟩
  · rintro ⟨var, hvar, tx, ty, rfl, hinside, hover, htouch⟩
    have hne : (translate var tx ty).Nonempty := edgeAdjacent_nonempty htouch
    have hvne : var.Nonempty := translate_nonempty.mp hne
    obtain ⟨hminx, hminy⟩ := variants_min_zero hvar hvne
    have hminxp : minX (translate var tx ty) = tx := by
      rw [minX_translate tx ty hvne, hminx]
      ring
    have hminyp : minY (translate var tx ty) = ty := by
      rw [minY_translate tx ty hvne, hminy]
      ring
    have hmaxxp : maxX (translate var tx ty) = maxX var + tx := maxX_translate tx ty hvne
    have hmaxyp : maxY (translate var tx ty) = maxY var + ty := maxY_translate tx ty hvne
    obtain ⟨cmin, hcmin, hcmineq⟩ := minX_mem hne
    obtain ⟨cmax, hcmax, hcmaxeq⟩ := maxX_mem hne
    obtain ⟨dmin, hdmin, hdmineq⟩ := minY_mem hne
    obtain ⟨dmax, hdmax, hdmaxeq⟩ := maxY_mem hne
    have hb1 := hinside cmin hcmin
    have hb2 := hinside cmax hcmax
    have hb3 := hinside dmin hdmin
    have hb4 := hinside dmax hdmax
    refine ⟨⟨translate var tx ty, orthHalo (translate var tx ty)⟩, ?_, rfl⟩
    rw [mem_enumerate]
    exact ⟨var, hvar, tx, ty, by omega, by omega, by omega, by omega, rfl, hover, htouch⟩


theorem nodup_flatMap_of_tag {α β : Type} (l : List α) (f : α → List β) (T : β → α)
    (hl : l.Nodup) (hf : ∀ x ∈ l, (f x).Nodup) (hT : ∀ x ∈ l, ∀ b ∈ f x, T b = x) :
    (l.flatMap f).Nodup := by
  rw [List.nodup_flatMap]
  refine ⟨hf, ?_⟩
  refine hl.imp_of_mem ?_
  intro a b ha hb hne
  intro c hca hcb
  exact hne (((hT a ha c hca).symm.trans (hT b hb c hcb)))

theorem enumerate_nodup (dark : Shape) (name : String) (gw gh : ℤ) (excl : Shape) :
    ((enumerate_candidates_for_dark_fast dark name gw gh excl).map Cand.cells).Nodup := by
  have hshape : ∀ c ∈ enumerate_candidates_for_dark_fast dark name gw gh excl,
      ∃ var ∈ SHAPE_VARIANTS name, ∃ tx ty : ℤ,
        c = ⟨translate var tx ty, orthHalo (translate var tx ty)⟩ := by
    intro c hc
    obtain ⟨var, hvar, tx, ty, -, -, -, -, rfl, -, -⟩ := mem_enumerate.mp hc
    exact ⟨var, hvar, tx, ty, rfl⟩
  have hcand : (enumerate_candidates_for_dark_fast dark name gw gh excl).Nodup := by
    unfold enumerate_candidates_for_dark_fast
    apply nodup_flatMap_of_tag _ _ (fun c => normalize c.cells)
    · exact List.nodup_dedup _
    · intro var hvar
      split
      · exact List.nodup_nil
      · apply nodup_flatMap_of_tag _ _ (fun c => minX c.cells)
        · exact intRange_nodup _
        · intro tx htx
          refine List.Nodup.filterMap ?_ (intRange_nodup _)
          intro ty ty' c hc hc'
          rw [Option.mem_def] at hc hc'
          split at hc
          · exact Option.noConfusion hc
          · split at hc
            · exact Option.noConfusion hc
            · rename_i hov htc
              rw [not_not] at htc
              split at hc'
              · exact Option.noConfusion hc'
              · split at hc'
                · exact Option.noConfusion hc'
                · rename_i hov' htc'
                  rw [not_not] at htc'
                  obtain rfl := Option.some.inj hc
                  have hcells : translate var tx ty = translate var tx ty' :=
                    (congrArg Cand.cells (Option.some.inj hc')).symm
                  have hne : (translate var tx ty).Nonempty := edgeAdjacent_nonempty htc
                  have hvne : var.Nonempty := translate_nonempty.mp hne
                  have h1 := minY_translate (s := var) tx ty hvne
                  have h2 := minY_translate (s := var) tx ty' hvne
                  rw [hcells] at h1
                  omega
        · intro tx htx c hc
          rw [List.mem_filterMap] at hc
          obtain ⟨ty, hty, hf⟩ := hc
          split at hf
          · exact Option.noConfusion hf
          · split at hf
            · exact Option.noConfusion hf
            · rename_i hov htc
              rw [not_not] at htc
              obtain rfl := Option.some.inj hf
              have hne : (translate var tx ty).Nonempty := edgeAdjacent_nonempty htc
              have hvne : var.Nonempty := translate_nonempty.mp hne
              obtain ⟨hminx, -⟩ := variants_min_zero hvar hvne
              show minX (translate var tx ty) = tx
              rw [minX_translate tx ty hvne, hminx]
              ring
    · intro var hvar c hc
      split at hc
      · simp at hc
      · rw [List.mem_flatMap] at hc
        obtain ⟨tx, htx, hc⟩ := hc
        rw [List.mem_filterMap] at hc
        obtain ⟨ty, hty, hf⟩ := hc
        split at hf
        · exact Option.noConfusion hf
        · split at hf
          · exact Option.noConfusion hf
          · rename_i hov htc
            rw [not_not] at htc
            obtain rfl := Option.some.inj hf
            have hne : (translate var tx ty).Nonempty := edgeAdjacent_nonempty htc
            show normalize (translate var tx ty) = var
            exact normalize_translate_normalized (variants_normalized hvar) rfl
  refine List.Nodup.map_on ?_ hcand
  intro c1 h1 c2 h2 hcells
  obtain ⟨v1, hv1, t1, u1, rfl⟩ := hshape c1 h1
  obtain ⟨v2, hv2, t2, u2, rfl⟩ := hshape c2 h2
  simp only at hcells
  rw [Cand.mk.injEq]
  exact ⟨hcells, by rw [hcells]⟩

/-- C4: the list returned by the candidate enumerator contains a placement
iff it is an in-bounds translation of some symmetry variant of the shape
kind, cell-disjoint from the excluded cells, and orthogonally bordering the
dark piece; and the returned list has no two entries with the same cell
set. -/
theorem C4_enumerate_characterization (dark : Shape) (name : String) (gw gh : ℤ)
    (excl : Shape) :
    (∀ p : Shape,
      p ∈ (enumerate_candidates_for_dark_fast dark name gw gh excl).map Cand.cells ↔
        ∃ var ∈ SHAPE_VARIANTS name, ∃ tx ty : ℤ, p = translate var tx ty ∧
          inside gw gh p ∧ p ∩ excl = ∅ ∧ edgeAdjacent p dark) ∧
    ((enumerate_candidates_for_dark_fast dark name gw gh excl).map Cand.cells).Nodup :=
  ⟨fun _ => enumerate_cells_iff, enumerate_nodup dark name gw gh excl⟩


theorem variant_card {s v : Shape} (h : v ∈ rotations_and_reflections s) :
    v.card = s.card := by
  obtain ⟨fx, fy, rot, hrot, rfl⟩ := mem_rotations.mp h
  rw [List.mem_range] at hrot
  rw [card_normalize, card_image_transform s fx fy rot hrot]

theorem mem_rotations_shapes_match {s v : Shape} (h : v ∈ rotations_and_reflections s) :
    shapes_match v s := by
  obtain ⟨fx, fy, rot, hrot, rfl⟩ := mem_rotations.mp h
  rw [List.mem_range] at hrot
  refine ⟨by rw [card_normalize, card_image_transform s fx fy rot hrot], fx, fy, ⟨rot, hrot⟩, ?_⟩
  rw [normalize_shape_eq, normalize_shape_eq, normalize_idem]

theorem mem_names_for_size {name : String} {k : ℕ} (h : name ∈ names_for_size k) :
    ∃ s : Shape, (name, s) ∈ PRESET_SHAPES ∧ s.card = k := by
  unfold names_for_size at h
  rw [List.mem_map] at h
  obtain ⟨ns, hns, rfl⟩ := h
  rw [List.mem_filter] at hns
  refine ⟨ns.2, hns.1, ?_⟩
  have h2 := hns.2
  rwa [decide_eq_true_eq] at h2

theorem preset_lookup : ∀ ns ∈ PRESET_SHAPES, PRESET_SHAPES.lookup ns.1 = some ns.2 := by
  decide

/-- C3 (amended): every candidate the solver pools for a dark piece has the
same cell count as that dark piece and is congruent (by `shapes_match`) to
some preset shape of that cell count — not necessarily to the dark piece
itself — and is in-bounds, edge-touches that dark piece, and overlaps no
dark cell. -/
theorem C3_pool_candidates (gw gh : ℤ) (darks : List Shape) (i : ℕ) (c : Cand)
    (hc : c ∈ (candidate_pools gw gh darks).getD i []) :
    c.cells.card = (darks.getD i ∅).card ∧
    (∃ ns ∈ PRESET_SHAPES, ns.2.card = (darks.getD i ∅).card ∧ shapes_match c.cells ns.2) ∧
    inside gw gh c.cells ∧
    edgeAdjacent c.cells (darks.getD i ∅) ∧
    c.cells ∩ unionShapes darks = ∅ := by
  obtain ⟨name, hname, var, hvar, tx, ty, h1, h2, h3, h4, hceq, h5, h6⟩ := mem_pools_shape hc
  obtain ⟨s, hmem, hcard⟩ := mem_names_for_size hname
  have hlookup : PRESET_SHAPES.lookup name = some s := preset_lookup (name, s) hmem
  have hvars : SHAPE_VARIANTS name = rotations_and_reflections s := by
    unfold SHAPE_VARIANTS
    rw [hlookup]
    rfl
  rw [hvars] at hvar
  have hcells : c.cells = translate var tx ty := by rw [hceq]
  have hcardc : c.cells.card = s.card := by
    rw [hcells, card_translate, variant_card hvar]
  have hinside : inside gw gh c.cells ∧ c.cells ∩ unionShapes darks = ∅ ∧
      edgeAdjacent c.cells (darks.getD i ∅) := by
    have hmem2 : c.cells ∈ (enumerate_candidates_for_dark_fast (darks.getD i ∅) name gw gh
        (unionShapes darks)).map Cand.cells := by
      rw [List.mem_map]
      refine ⟨c, ?_, rfl⟩
      rw [mem_enumerate]
      rw [hvars]
      exact ⟨var, hvar, tx, ty, h1, h2, h3, h4, hceq, h5, h6⟩
    obtain ⟨var', -, tx', ty', -, hin, hov, htc⟩ := enumerate_cells_iff.mp hmem2
    exact ⟨hin, hov, htc⟩
  refine ⟨by rw [hcardc, hcard], ⟨(name, s), hmem, by rw [hcard], ?_⟩,
    hinside.1, hinside.2.2, hinside.2.1⟩
  rw [hcells, shapes_match_translate_left]
  exact mem_rotations_shapes_match hvar

/-- C3 counterexample to the claim as stated: on a 3x3 grid with a single
dark I-tromino, the solver's candidate pool contains an L-tromino placement,
which is not congruent to the dark piece. -/
theorem C3_counterexample :
    ({((0 : ℤ), (1 : ℤ)), (1, 1), (0, 2)} : Shape) ∈
      ((candidate_pools 3 3 [{((0 : ℤ), (0 : ℤ)), (1, 0), (2, 0)}]).getD 0 []).map
        Cand.cells ∧
    ¬ shapes_match ({((0 : ℤ), (1 : ℤ)), (1, 1), (0, 2)} : Shape)
      ({((0 : ℤ), (0 : ℤ)), (1, 0), (2, 0)} : Shape) := by
  constructor
  · decide
  · decide

/-- Witness for C3 at the concrete L-tromino candidate of the 3x3 instance. -/
theorem C3_pool_candidates_witness :
    (⟨{((0 : ℤ), (1 : ℤ)), (1, 1), (0, 2)},
        orthHalo {((0 : ℤ), (1 : ℤ)), (1, 1), (0, 2)}⟩ : Cand) ∈
      (candidate_pools 3 3 [{((0 : ℤ), (0 : ℤ)), (1, 0), (2, 0)}]).getD 0 [] ∧
    (({((0 : ℤ), (1 : ℤ)), (1, 1), (0, 2)} : Shape).card =
      (([{((0 : ℤ), (0 : ℤ)), (1, 0), (2, 0)}] : List Shape).getD 0 ∅).card ∧
     (∃ ns ∈ PRESET_SHAPES,
        ns.2.card = (([{((0 : ℤ), (0 : ℤ)), (1, 0), (2, 0)}] : List Shape).getD 0 ∅).card ∧
        shapes_match ({((0 : ℤ), (1 : ℤ)), (1, 1), (0, 2)} : Shape) ns.2) ∧
     inside 3 3 ({((0 : ℤ), (1 : ℤ)), (1, 1), (0, 2)} : Shape) ∧
     edgeAdjacent ({((0 : ℤ), (1 : ℤ)), (1, 1), (0, 2)} : Shape)
       (([{((0 : ℤ), (0 : ℤ)), (1, 0), (2, 0)}] : List Shape).getD 0 ∅) ∧
     ({((0 : ℤ), (1 : ℤ)), (1, 1), (0, 2)} : Shape) ∩
       unionShapes [{((0 : ℤ), (0 : ℤ)), (1, 0), (2, 0)}] = ∅) :=
  ⟨by decide,
   C3_pool_candidates 3 3 [{((0 : ℤ), (0 : ℤ)), (1, 0), (2, 0)}] 0
     ⟨{((0 : ℤ), (1 : ℤ)), (1, 1), (0, 2)},
       orthHalo {((0 : ℤ), (1 : ℤ)), (1, 1), (0, 2)}⟩ (by decide)⟩


/-- One oracle-supplied placement attempt for a non-first light piece: the
variant the shuffled iteration reached and the raw values drawn by
`random.randint` for the translation (reduced into range with `emod`). -/
structure PieceTrial where
  var : Shape
  tx : ℤ
  ty : ℤ

/-- Oracle data for one full restart of `place_solution`: the first piece's
variant and translation draws, then for each later piece the flattened
sequence of (variant, translation) trials in the order the source would try
them (shuffled variants, at most 12 random translations each). -/
structure AttemptScript where
  firstVar : Shape
  ftx : ℤ
  fty : ℤ
  rest : List (List PieceTrial)

/-- The inner trial loop placing one non-first light piece: skip variants
that do not fit the grid, and accept the first candidate that is
cell-disjoint from all placed cells, not orthogonally adjacent to them, and
corner-touching them. -/
def tryTrials (gw gh : ℤ) (occupied : Finset Cell) : List PieceTrial → Option Shape
  | [] => none
  | t :: ts =>
    if gw - maxX t.var - 1 < 0 ∨ gh - maxY t.var - 1 < 0 then tryTrials gw gh occupied ts
    else
      let cand := translate t.var (t.tx.emod (gw - maxX t.var - 1 + 1))
        (t.ty.emod (gh - maxY t.var - 1 + 1))
      if cand ∩ occupied ≠ ∅ then tryTrials gw gh occupied ts
      else if edgeAdjacent cand occupied then tryTrials gw gh occupied ts
      else if ¬ cornerAdjacent cand occupied then tryTrials gw gh occupied ts
      else some cand

/-- The `for _ in range(num_pieces-1)` loop of `place_solution`: place each
remaining piece with its trial script, extending the layout and occupied
set, failing the attempt as soon as a piece cannot be placed. -/
def placePieces (gw gh : ℤ) : ℕ → List (List PieceTrial) → List Shape → Finset Cell →
    Option (List Shape)
  | 0, _, lit, _ => some lit
  | k + 1, scripts, lit, occupied =>
    match tryTrials gw gh occupied (scripts.headD []) with
    | none => none
    | some cand => placePieces gw gh k scripts.tail (lit ++ [cand]) (occupied ∪ cand)

/-- The final `if ok and len(lit_pieces)==num_pieces` acceptance check of
one restart. -/
def checkLen (num_pieces : ℕ) : Option (List Shape) → Option (List Shape)
  | none => none
  | some lit => if lit.length = num_pieces then some lit else none

/-- One restart of `place_solution`: place the first piece unchecked (only
grid fit is required), then the remaining pieces, and require the final
layout to have exactly `num_pieces` pieces. -/
def runAttempt (gw gh : ℤ) (num_pieces : ℕ) (a : AttemptScript) : Option (List Shape) :=
  if gw - maxX a.firstVar - 1 < 0 ∨ gh - maxY a.firstVar - 1 < 0 then none
  else
    checkLen num_pieces (placePieces gw gh (num_pieces - 1) a.rest
      [translate a.firstVar (a.ftx.emod (gw - maxX a.firstVar - 1 + 1))
        (a.fty.emod (gh - maxY a.firstVar - 1 + 1))]
      (translate a.firstVar (a.ftx.emod (gw - maxX a.firstVar - 1 + 1))
        (a.fty.emod (gh - maxY a.firstVar - 1 + 1))))

/-- `place_solution(grid_w, grid_h, num_pieces, shape_pool, max_attempts)`:
the first restart whose attempt succeeds (the oracle supplies one script
per restart; `max_attempts` is the script list's length). -/
def place_solution (gw gh : ℤ) (num_pieces : ℕ) (scripts : List AttemptScript) :
    Option (List Shape) :=
  scripts.findSome? (runAttempt gw gh num_pieces)

/-- The light-layout invariant maintained piece by piece. -/
def LitInv (lit : List Shape) : Prop :=
  List.Pairwise (fun a b => a ∩ b = ∅) lit ∧
  List.Pairwise (fun a b => ¬ edgeAdjacent a b) lit ∧
  ∀ k, 0 < k → k < lit.length → cornerAdjacent (lit.getD k ∅) (unionShapes (lit.take k))

theorem tryTrials_spec (gw gh : ℤ) (occ : Finset Cell) :
    ∀ (ts : List PieceTrial) (cand : Shape), tryTrials gw gh occ ts = some cand →
      cand ∩ occ = ∅ ∧ ¬ edgeAdjacent cand occ ∧ cornerAdjacent cand occ := by
  intro ts
  induction ts with
  | nil => intro cand h; exact Option.noConfusion h
  | cons t ts ih =>
    intro cand h
    rw [tryTrials] at h
    split at h
    · exact ih cand h
    · dsimp only at h
      split at h
      · exact ih cand h
      · split at h
        · exact ih cand h
        · split at h
          · exact ih cand h
          · rename_i hdisj hadj htouch
            rw [not_not] at hdisj
            rw [not_not] at htouch
            obtain rfl := Option.some.inj h
            exact ⟨hdisj, hadj, htouch⟩

theorem unionShapes_append (l1 l2 : List Shape) :
    unionShapes (l1 ++ l2) = unionShapes l1 ∪ unionShapes l2 := by
  induction l1 with
  | nil =>
    unfold unionShapes
    rw [List.nil_append, List.foldr_nil]
    ext x
    simp
  | cons a t ih =>
    unfold unionShapes at *
    rw [List.cons_append, List.foldr_cons, List.foldr_cons, ih, Finset.union_assoc]

theorem edgeAdjacent_mono {a s t : Shape} (h : edgeAdjacent a s) (hst : s ⊆ t) :
    edgeAdjacent a t := by
  obtain ⟨c, hc, d, hd, hds⟩ := h
  exact ⟨c, hc, d, hd, hst hds⟩

theorem mem_take_shape {l : List Shape} {k : ℕ} {s : Shape} (h : s ∈ l.take k) :
    ∃ i, i < k ∧ i < l.length ∧ l.getD i ∅ = s := by
  induction l generalizing k with
  | nil => simp at h
  | cons a t ih =>
    match k with
    | 0 => simp at h
    | k + 1 =>
      rw [List.take_succ_cons] at h
      rcases List.mem_cons.mp h with rfl | h'
      · exact ⟨0, by omega, by simp, rfl⟩
      · obtain ⟨i, h1, h2, h3⟩ := ih h'
        refine ⟨i + 1, by omega, ?_, h3⟩
        simp only [List.length_cons]
        omega

theorem litInv_extend {lit : List Shape} {cand : Shape} (hinv : LitInv lit)
    (hdisj : cand ∩ unionShapes lit = ∅)
    (hadj : ¬ edgeAdjacent cand (unionShapes lit))
    (htouch : cornerAdjacent cand (unionShapes lit)) :
    LitInv (lit ++ [cand]) := by
  obtain ⟨hd, ha, hc⟩ := hinv
  have hsub : ∀ s ∈ lit, s ⊆ unionShapes lit := by
    intro s hs x hx
    exact mem_unionShapes.mpr ⟨s, hs, hx⟩
  refine ⟨?_, ?_, ?_⟩
  · rw [List.pairwise_append]
    refine ⟨hd, List.pairwise_singleton _ _, ?_⟩
    intro s hs c2 hc2
    rw [List.mem_singleton] at hc2
    rw [hc2]
    rw [Finset.eq_empty_iff_forall_not_mem]
    intro x hx
    rcases Finset.mem_inter.mp hx with ⟨hx1, hx2⟩
    have hx3 : x ∈ cand ∩ unionShapes lit :=
      Finset.mem_inter.mpr ⟨hx2, hsub s hs hx1⟩
    rw [hdisj] at hx3
    simp at hx3
  · rw [List.pairwise_append]
    refine ⟨ha, List.pairwise_singleton _ _, ?_⟩
    intro s hs c2 hc2
    rw [List.mem_singleton] at hc2
    rw [hc2]
    intro hadj2
    exact hadj (edgeAdjacent_mono (edgeAdjacent_comm.mp hadj2) (hsub s hs))
  · intro k hk0 hk
    rw [List.length_append, List.length_singleton] at hk
    by_cases hke : k = lit.length
    · subst hke
      have h1 : (lit ++ [cand]).getD lit.length ∅ = cand := by
        rw [List.getD_eq_getElem?_getD, List.getElem?_append_right (le_refl _)]
        simp
      have h2 : (lit ++ [cand]).take lit.length = lit := by
        rw [List.take_append_of_le_length (le_refl _), List.take_length]
      rw [h1, h2]
      exact htouch
    · have hklt : k < lit.length := by omega
      have h1 : (lit ++ [cand]).getD k ∅ = lit.getD k ∅ := by
        rw [List.getD_eq_getElem?_getD, List.getD_eq_getElem?_getD,
          List.getElem?_append_left hklt]
      have h2 : (lit ++ [cand]).take k = lit.take k := by
        rw [List.take_append_of_le_length (by omega)]
      rw [h1, h2]
      exact hc k hk0 hklt

theorem placePieces_sound (gw gh : ℤ) :
    ∀ (k : ℕ) (scripts : List (List PieceTrial)) (lit : List Shape) (occ : Finset Cell),
      LitInv lit → occ = unionShapes lit →
      ∀ out, placePieces gw gh k scripts lit occ = some out →
        LitInv out ∧ out.length = lit.length + k := by
  intro k
  induction k with
  | zero =>
    intro scripts lit occ hinv hocc out h
    obtain rfl := Option.some.inj h
    exact ⟨hinv, by omega⟩
  | succ m ih =>
    intro scripts lit occ hinv hocc out h
    rw [placePieces] at h
    rcases htr : tryTrials gw gh occ (scripts.headD []) with _ | cand
    · rw [htr] at h
      exact Option.noConfusion h
    · rw [htr] at h
      obtain ⟨hdisj, hadj, htouch⟩ := tryTrials_spec gw gh occ _ cand htr
      rw [hocc] at hdisj hadj htouch
      have hinv2 : LitInv (lit ++ [cand]) := litInv_extend hinv hdisj hadj htouch
      have hocc2 : occ ∪ cand = unionShapes (lit ++ [cand]) := by
        rw [hocc, unionShapes_append]
        unfold unionShapes
        rw [List.foldr_cons, List.foldr_nil, Finset.union_empty]
      obtain ⟨hi, hl⟩ := ih scripts.tail (lit ++ [cand]) (occ ∪ cand) hinv2 hocc2 out h
      refine ⟨hi, ?_⟩
      rw [hl, List.length_append, List.length_singleton]
      omega

theorem litInv_components {lit : List Shape} (hne : lit ≠ []) (hinv : LitInv lit) :
    (corner_connected_components lit).length = 1 := by
  rw [components_length_one_iff]
  refine ⟨hne, ?_⟩
  intro j hj
  induction j using Nat.strong_induction_on with
  | _ j ihj =>
    match j with
    | 0 => exact Relation.ReflTransGen.refl
    | j + 1 =>
      have hci := hinv.2.2 (j + 1) (by omega) hj
      obtain ⟨c, hc, d, hd, hdu⟩ := hci
      obtain ⟨s, hs, hds⟩ := mem_unionShapes.mp hdu
      obtain ⟨i, hik, hil, rfl⟩ := mem_take_shape hs
      have hrel : cornerRel lit (j + 1) i := ⟨by omega, hil, by omega, c, hc, d, hd, hds⟩
      have hreach0 : Relation.ReflTransGen (cornerRel lit) 0 i := ihj i (by omega) (by omega)
      exact hreach0.tail (cornerRel_symm hrel)


theorem runAttempt_sound (gw gh : ℤ) (num : ℕ) (a : AttemptScript) (lit : List Shape)
    (h : runAttempt gw gh num a = some lit) : LitInv lit ∧ lit ≠ [] := by
  unfold runAttempt at h
  split at h
  · exact Option.noConfusion h
  · rcases hpp : placePieces gw gh (num - 1) a.rest
        [translate a.firstVar (a.ftx.emod (gw - maxX a.firstVar - 1 + 1))
          (a.fty.emod (gh - maxY a.firstVar - 1 + 1))]
        (translate a.firstVar (a.ftx.emod (gw - maxX a.firstVar - 1 + 1))
          (a.fty.emod (gh - maxY a.firstVar - 1 + 1))) with _ | out
    · rw [hpp, checkLen] at h
      exact Option.noConfusion h
    · rw [hpp, checkLen] at h
      split at h
      · obtain rfl := Option.some.inj h
        have hinv0 : LitInv [translate a.firstVar (a.ftx.emod (gw - maxX a.firstVar - 1 + 1))
            (a.fty.emod (gh - maxY a.firstVar - 1 + 1))] := by
          refine ⟨List.pairwise_singleton _ _, List.pairwise_singleton _ _, ?_⟩
          intro k hk0 hk
          rw [List.length_singleton] at hk
          omega
        have hocc0 : translate a.firstVar (a.ftx.emod (gw - maxX a.firstVar - 1 + 1))
            (a.fty.emod (gh - maxY a.firstVar - 1 + 1)) =
            unionShapes [translate a.firstVar (a.ftx.emod (gw - maxX a.firstVar - 1 + 1))
              (a.fty.emod (gh - maxY a.firstVar - 1 + 1))] := by
          unfold unionShapes
          rw [List.foldr_cons, List.foldr_nil, Finset.union_empty]
        obtain ⟨hinv, hlen⟩ := placePieces_sound gw gh (num - 1) a.rest _ _ hinv0 hocc0 out hpp
        refine ⟨hinv, ?_⟩
        intro hemp
        rw [hemp] at hlen
        simp only [List.length_nil, List.length_singleton] at hlen
        omega
      · exact Option.noConfusion h

/-- C6: every light layout returned by `place_solution` has pairwise
cell-disjoint pieces, no two pieces orthogonally adjacent, each piece after
the first corner-touching the union of the earlier pieces, and the pieces
form exactly one corner-connected component (both by
`corner_connected_components` and as mutual reachability under the
corner-adjacency relation). -/
theorem C6_place_solution_invariants (gw gh : ℤ) (num : ℕ)
    (scripts : List AttemptScript) (lit : List Shape)
    (h : place_solution gw gh num scripts = some lit) :
    lit ≠ [] ∧
    List.Pairwise (fun a b => a ∩ b = ∅) lit ∧
    List.Pairwise (fun a b => ¬ edgeAdjacent a b) lit ∧
    (∀ k, 0 < k → k < lit.length →
      cornerAdjacent (lit.getD k ∅) (unionShapes (lit.take k))) ∧
    (corner_connected_components lit).length = 1 ∧
    (∀ i j, i < lit.length → j < lit.length →
      Relation.ReflTransGen (cornerRel lit) i j) := by
  have hrun : ∃ a ∈ scripts, runAttempt gw gh num a = some lit := by
    unfold place_solution at h
    induction scripts with
    | nil => exact Option.noConfusion h
    | cons a as ih =>
      rw [List.findSome?_cons] at h
      rcases hfa : runAttempt gw gh num a with _ | l
      · rw [hfa] at h
        obtain ⟨b, hb, hfb⟩ := ih h
        exact ⟨b, List.mem_cons_of_mem a hb, hfb⟩
      · rw [hfa] at h
        obtain rfl := Option.some.inj h
        exact ⟨a, List.mem_cons_self a as, hfa⟩
  obtain ⟨a, -, hfa⟩ := hrun
  obtain ⟨⟨hd, hadj, hcorner⟩, hne⟩ := runAttempt_sound gw gh num a lit hfa
  have hcomp : (corner_connected_components lit).length = 1 :=
    litInv_components hne ⟨hd, hadj, hcorner⟩
  exact ⟨hne, hd, hadj, hcorner, hcomp,
    fun i j hi hj => components_one_all_pairs hcomp i j hi hj⟩

/-- Witness for C6: a concrete two-monomino script on a 3-by-3 grid. -/
theorem C6_place_solution_invariants_witness :
    (place_solution 3 3 2
        [⟨{((0 : ℤ), (0 : ℤ))}, 0, 0, [[⟨{((0 : ℤ), (0 : ℤ))}, 1, 1⟩]]⟩] =
      some [{((0 : ℤ), (0 : ℤ))}, {((1 : ℤ), (1 : ℤ))}]) ∧
    (corner_connected_components
      [({((0 : ℤ), (0 : ℤ))} : Shape), {((1 : ℤ), (1 : ℤ))}]).length = 1 :=
  ⟨by decide,
   (C6_place_solution_invariants 3 3 2
      [⟨{((0 : ℤ), (0 : ℤ))}, 0, 0, [[⟨{((0 : ℤ), (0 : ℤ))}, 1, 1⟩]]⟩]
      [{((0 : ℤ), (0 : ℤ))}, {((1 : ℤ), (1 : ℤ))}] (by decide)).2.2.2.2.1⟩


/-! ## `place_darks_for_solution` (both source variants)

`generate_puzzle.py`'s dark-layout deriver and `main.py`'s variant share
their candidate search order; `generate_puzzle.py` additionally rejects
candidates orthogonally adjacent to already placed dark cells.  The two
`random.shuffle` calls per lit piece are abstracted as oracle functions. -/

/-- The preset names one of whose symmetry variants normalizes exactly to
the normalization of `lit` (the first `matching_shapes` loop). -/
def exactMatchNames (lit : Shape) : List String :=
  (PRESET_SHAPES.filter
    (fun ns => (SHAPE_VARIANTS ns.1).any
      (fun v => decide (normalize v = normalize lit)))).map Prod.fst

/-- `matching_shapes` after the fallback: the exact symmetry matches if any
exist, otherwise every preset name of the same cell count. -/
def matchingShapesFor (lit : Shape) : List String :=
  if exactMatchNames lit = [] then
    (PRESET_SHAPES.filter (fun ns => decide (ns.2.card = lit.card))).map Prod.fst
  else exactMatchNames lit

/-- The candidate stream for one lit piece, in source order: shuffled
matching names, shuffled variants (skipping grid-unfit ones), lit cells in
sorted order, their four orthogonal neighbors, and all translations; each
entry pairs the translated candidate with the targeted neighbor cell. -/
def darkCandList (gw gh : ℤ) (lit : Shape) (shuffledNames : List String)
    (shufV : String → List Shape → List Shape) : List (Shape × Cell) :=
  shuffledNames.flatMap (fun name =>
    (shufV name (SHAPE_VARIANTS name)).flatMap (fun var =>
      if gw - maxX var - 1 < 0 ∨ gh - maxY var - 1 < 0 then []
      else
        (sortCells lit).flatMap (fun cell =>
          (orthogonal_neighbors cell).flatMap (fun nbr =>
            (intRange (gw - maxX var - 1 + 1)).flatMap (fun tx =>
              (intRange (gh - maxY var - 1 + 1)).map (fun ty =>
                (translate var tx ty, nbr)))))))

/-- `generate_puzzle.py`'s acceptance test: the candidate must contain the
targeted neighbor, avoid all occupied cells, and not be orthogonally
adjacent to previously placed dark cells; the first acceptable candidate
wins. -/
def darkSearch (occupied dark_cells : Finset Cell) (cands : List (Shape × Cell)) :
    Option Shape :=
  (cands.find? (fun cn => decide (cn.2 ∈ cn.1) && decide (cn.1 ∩ occupied = ∅)
      && !(decide (edgeAdjacent cn.1 dark_cells)))).map Prod.fst

/-- `main.py`'s acceptance test: same, but with no check against previously
placed dark cells. -/
def darkSearchMain (occupied : Finset Cell) (cands : List (Shape × Cell)) :
    Option Shape :=
  (cands.find? (fun cn => decide (cn.2 ∈ cn.1)
      && decide (cn.1 ∩ occupied = ∅))).map Prod.fst

/-- The two `random.shuffle` calls per lit piece (of the matching-name list
and of each name's variant list), indexed by lit-piece position. -/
structure DarkOracle where
  shufN : ℕ → List String → List String
  shufV : ℕ → String → List Shape → List Shape

/-- Identity (no-op) shuffles. -/
def idDarkOracle : DarkOracle :=
  { shufN := fun _ l => l, shufV := fun _ _ l => l }

/-- The `for lit in lit_pieces` loop of `generate_puzzle.py`'s
`place_darks_for_solution`, with `occupied` and `dark_cells` threaded. -/
def placeDarksGo (gw gh : ℤ) (o : DarkOracle) :
    List Shape → ℕ → List Shape → Finset Cell → Finset Cell → Option (List Shape)
  | [], _, darks, _, _ => some darks
  | lit :: rest, i, darks, occupied, dark_cells =>
    match darkSearch occupied dark_cells
        (darkCandList gw gh lit (o.shufN i (matchingShapesFor lit)) (o.shufV i)) with
    | none => none
    | some cand =>
      placeDarksGo gw gh o rest (i + 1) (darks ++ [cand]) (occupied ∪ cand)
        (dark_cells ∪ cand)

/-- `place_darks_for_solution` from `generate_puzzle.py`. -/
def place_darks_for_solution (gw gh : ℤ) (o : DarkOracle) (lit_pieces : List Shape) :
    Option (List Shape) :=
  placeDarksGo gw gh o lit_pieces 0 [] (unionShapes lit_pieces) ∅

/-- The `for lit in lit_pieces` loop of `main.py`'s variant (no dark-cell
tracking). -/
def placeDarksMainGo (gw gh : ℤ) (o : DarkOracle) :
    List Shape → ℕ → List Shape → Finset Cell → Option (List Shape)
  | [], _, darks, _ => some darks
  | lit :: rest, i, darks, occupied =>
    match darkSearchMain occupied
        (darkCandList gw gh lit (o.shufN i (matchingShapesFor lit)) (o.shufV i)) with
    | none => none
    | some cand =>
      placeDarksMainGo gw gh o rest (i + 1) (darks ++ [cand]) (occupied ∪ cand)

/-- `place_darks_for_solution` from `main.py`. -/
def place_darks_for_solution_main (gw gh : ℤ) (o : DarkOracle)
    (lit_pieces : List Shape) : Option (List Shape) :=
  placeDarksMainGo gw gh o lit_pieces 0 [] (unionShapes lit_pieces)

lemma find_map_spec {α β : Type} (p : α → Bool) (f : α → β) (l : List α) (b : β)
    (h : (l.find? p).map f = some b) : ∃ a ∈ l, p a = true ∧ f a = b := by
  rcases hf : l.find? p with _ | a
  · rw [hf] at h
    exact Option.noConfusion h
  · rw [hf] at h
    exact ⟨a, List.mem_of_find?_eq_some hf, List.find?_some hf, Option.some.inj h⟩

lemma darkSearch_spec {occ dk : Finset Cell} {cands : List (Shape × Cell)}
    {cand : Shape} (h : darkSearch occ dk cands = some cand) :
    ∃ nbr : Cell, (cand, nbr) ∈ cands ∧ nbr ∈ cand ∧ cand ∩ occ = ∅ ∧
      ¬ edgeAdjacent cand dk := by
  unfold darkSearch at h
  obtain ⟨cn, hmem, hp, hfst⟩ := find_map_spec _ _ _ _ h
  rcases cn with ⟨c, nbr⟩
  simp only [Bool.and_eq_true, decide_eq_true_eq, Bool.not_eq_eq_eq_not, Bool.not_true,
    decide_eq_false_iff_not] at hp
  obtain rfl : c = cand := hfst
  exact ⟨nbr, hmem, hp.1.1, hp.1.2, hp.2⟩

lemma darkSearchMain_spec {occ : Finset Cell} {cands : List (Shape × Cell)}
    {cand : Shape} (h : darkSearchMain occ cands = some cand) :
    ∃ nbr : Cell, (cand, nbr) ∈ cands ∧ nbr ∈ cand ∧ cand ∩ occ = ∅ := by
  unfold darkSearchMain at h
  obtain ⟨cn, hmem, hp, hfst⟩ := find_map_spec _ _ _ _ h
  rcases cn with ⟨c, nbr⟩
  simp only [Bool.and_eq_true, decide_eq_true_eq] at hp
  obtain rfl : c = cand := hfst
  exact ⟨nbr, hmem, hp.1, hp.2⟩

lemma mem_darkCandList {gw gh : ℤ} {lit : Shape} {shuffledNames : List String}
    {shufV : String → List Shape → List Shape} {cn : Shape × Cell}
    (h : cn ∈ darkCandList gw gh lit shuffledNames shufV) :
    (∃ name ∈ shuffledNames, ∃ var ∈ shufV name (SHAPE_VARIANTS name),
       ∃ tx ty : ℤ, cn.1 = translate var tx ty) ∧
    ∃ cell ∈ lit, cn.2 ∈ orthogonal_neighbors cell := by
  unfold darkCandList at h
  rw [List.mem_flatMap] at h
  obtain ⟨name, hname, h⟩ := h
  rw [List.mem_flatMap] at h
  obtain ⟨var, hvar, h⟩ := h
  by_cases hfit : gw - maxX var - 1 < 0 ∨ gh - maxY var - 1 < 0
  · rw [if_pos hfit] at h
    exact absurd h (List.not_mem_nil cn)
  · rw [if_neg hfit] at h
    rw [List.mem_flatMap] at h
    obtain ⟨cell, hcell, h⟩ := h
    rw [List.mem_flatMap] at h
    obtain ⟨nbr, hnbr, h⟩ := h
    rw [List.mem_flatMap] at h
    obtain ⟨tx, htx, h⟩ := h
    rw [List.mem_map] at h
    obtain ⟨ty, hty, rfl⟩ := h
    exact ⟨⟨name, hname, var, hvar, tx, ty, rfl⟩,
      cell, mem_sortCells.mp hcell, hnbr⟩


lemma unionShapes_nil : unionShapes ([] : List Shape) = ∅ := rfl

lemma unionShapes_cons (s : Shape) (l : List Shape) :
    unionShapes (s :: l) = s ∪ unionShapes l := rfl

lemma unionShapes_singleton (s : Shape) : unionShapes [s] = s := by
  rw [unionShapes_cons, unionShapes_nil, Finset.union_empty]

lemma getD_mem_take {l : List Shape} {i j : ℕ} (hij : i < j) (hiL : i < l.length) :
    l.getD i ∅ ∈ l.take j := by
  induction l generalizing i j with
  | nil => simp at hiL
  | cons a t ih =>
    match j, hij with
    | j + 1, _ =>
      rw [List.take_succ_cons]
      match i with
      | 0 => exact List.mem_cons_self a _
      | i + 1 =>
        refine List.mem_cons_of_mem _ (ih (by omega) ?_)
        rw [List.length_cons] at hiL
        omega

lemma getD_mem_self {l : List Shape} {i : ℕ} (hiL : i < l.length) :
    l.getD i ∅ ∈ l := by
  have h := getD_mem_take (Nat.lt_succ_of_lt hiL) hiL (l := l)
  rcases l with _ | ⟨a, t⟩
  · simp at hiL
  · exact List.mem_of_mem_take h

lemma exactMatchNames_spec {lit : Shape} {name : String}
    (h : name ∈ exactMatchNames lit) :
    ∃ ns ∈ PRESET_SHAPES, ns.1 = name ∧
      ∃ v ∈ SHAPE_VARIANTS name, normalize v = normalize lit := by
  unfold exactMatchNames at h
  rw [List.mem_map] at h
  obtain ⟨ns, hns, rfl⟩ := h
  rw [List.mem_filter] at hns
  obtain ⟨hmem, hany⟩ := hns
  rw [List.any_eq_true] at hany
  obtain ⟨v, hv, hnv⟩ := hany
  rw [decide_eq_true_eq] at hnv
  exact ⟨ns, hmem, rfl, v, hv, hnv⟩

lemma exactMatchNames_ne_nil {lit : Shape} {ns : String × Shape} {v : Shape}
    {tx ty : ℤ} (hns : ns ∈ PRESET_SHAPES) (hv : v ∈ SHAPE_VARIANTS ns.1)
    (hlit : lit = translate v tx ty) :
    exactMatchNames lit ≠ [] := by
  have hmem : ns.1 ∈ exactMatchNames lit := by
    unfold exactMatchNames
    rw [List.mem_map]
    refine ⟨ns, ?_, rfl⟩
    rw [List.mem_filter]
    refine ⟨hns, ?_⟩
    rw [List.any_eq_true]
    refine ⟨v, hv, ?_⟩
    rw [decide_eq_true_eq, hlit, normalize_translate]
  intro he
  rw [he] at hmem
  exact List.not_mem_nil _ hmem

lemma shapes_match_right_of_normalize_eq {v lit a : Shape}
    (h : normalize v = normalize lit) : shapes_match a v ↔ shapes_match a lit := by
  constructor
  · intro hm
    exact shapes_match_symm ((shapes_match_of_normalize_eq h a).mp (shapes_match_symm hm))
  · intro hm
    exact shapes_match_symm ((shapes_match_of_normalize_eq h a).mpr (shapes_match_symm hm))

lemma variants_pairwise_match : ∀ ns ∈ PRESET_SHAPES, ∀ u ∈ SHAPE_VARIANTS ns.1,
    ∀ v ∈ SHAPE_VARIANTS ns.1, shapes_match u v := by
  decide

lemma cand_shapes_match {lit cand : Shape} {shuffledNames : List String}
    {shufV : String → List Shape → List Shape}
    (hperm : shuffledNames.Perm (matchingShapesFor lit))
    (hsub : ∀ n l, (shufV n l).Perm l)
    (hpre : ∃ ns ∈ PRESET_SHAPES, ∃ v ∈ SHAPE_VARIANTS ns.1, ∃ tx ty : ℤ,
        lit = translate v tx ty)
    (hc : ∃ name ∈ shuffledNames, ∃ var ∈ shufV name (SHAPE_VARIANTS name),
        ∃ tx ty : ℤ, cand = translate var tx ty) :
    shapes_match cand lit := by
  obtain ⟨ns0, hns0, v0, hv0, tx0, ty0, hlit⟩ := hpre
  obtain ⟨name, hname, var, hvar, tx, ty, hcand⟩ := hc
  have hne := exactMatchNames_ne_nil hns0 hv0 hlit
  have hmsf : matchingShapesFor lit = exactMatchNames lit := by
    unfold matchingShapesFor
    rw [if_neg hne]
  have hname' : name ∈ exactMatchNames lit := by
    rw [← hmsf]
    exact hperm.mem_iff.mp hname
  obtain ⟨ns, hns, hns1, v, hv, hnv⟩ := exactMatchNames_spec hname'
  have hvar' : var ∈ SHAPE_VARIANTS name := (hsub name _).mem_iff.mp hvar
  have hmatch : shapes_match var v :=
    variants_pairwise_match ns hns var (by rw [hns1]; exact hvar') v
      (by rw [hns1]; exact hv)
  rw [hcand, shapes_match_translate_left]
  exact (shapes_match_right_of_normalize_eq hnv).mp hmatch


lemma placeDarksGo_sound (gw gh : ℤ) (o : DarkOracle)
    (hN : ∀ i l, (o.shufN i l).Perm l)
    (hV : ∀ i n l, (o.shufV i n l).Perm l) :
    ∀ (rem : List Shape) (i : ℕ) (acc : List Shape) (base : Finset Cell)
      (out : List Shape),
    placeDarksGo gw gh o rem i acc (base ∪ unionShapes acc) (unionShapes acc) =
      some out →
    ∃ nd : List Shape, out = acc ++ nd ∧ nd.length = rem.length ∧
      ∀ k, k < rem.length →
        (nd.getD k ∅) ∩ (base ∪ unionShapes acc ∪ unionShapes (nd.take k)) = ∅ ∧
        edgeAdjacent (nd.getD k ∅) (rem.getD k ∅) ∧
        ((∃ ns ∈ PRESET_SHAPES, ∃ v ∈ SHAPE_VARIANTS ns.1, ∃ tx ty : ℤ,
            rem.getD k ∅ = translate v tx ty) →
          shapes_match (nd.getD k ∅) (rem.getD k ∅)) := by
  intro rem
  induction rem with
  | nil =>
    intro i acc base out h
    unfold placeDarksGo at h
    obtain rfl := Option.some.inj h
    exact ⟨[], (List.append_nil acc).symm, rfl, fun k hk => absurd hk (by simp)⟩
  | cons lit rest ih =>
    intro i acc base out h
    unfold placeDarksGo at h
    rcases hds : darkSearch (base ∪ unionShapes acc) (unionShapes acc)
        (darkCandList gw gh lit (o.shufN i (matchingShapesFor lit)) (o.shufV i))
      with _ | cand
    · rw [hds] at h
      exact Option.noConfusion h
    · rw [hds] at h
      dsimp only at h
      have hocc : base ∪ unionShapes acc ∪ cand = base ∪ unionShapes (acc ++ [cand]) := by
        rw [unionShapes_append, unionShapes_singleton, Finset.union_assoc]
      have hdk : unionShapes acc ∪ cand = unionShapes (acc ++ [cand]) := by
        rw [unionShapes_append, unionShapes_singleton]
      rw [hocc, hdk] at h
      obtain ⟨nd, hout, hlen, hprops⟩ := ih (i + 1) (acc ++ [cand]) base out h
      obtain ⟨nbr, hmem, hnbr_in, hdisj, hnadj⟩ := darkSearch_spec hds
      obtain ⟨hfrom, cell, hcell, hnbr_orth⟩ := mem_darkCandList hmem
      refine ⟨cand :: nd, ?_, ?_, ?_⟩
      · rw [hout, List.append_assoc]
        rfl
      · rw [List.length_cons, hlen, List.length_cons]
      · intro k hk
        match k with
        | 0 =>
          refine ⟨?_, ?_, ?_⟩
          · rw [List.take_zero, unionShapes_nil, Finset.union_empty, List.getD_cons_zero]
            exact hdisj
          · rw [List.getD_cons_zero, List.getD_cons_zero]
            exact ⟨nbr, hnbr_in, cell, mem_orthogonal_neighbors.mp hnbr_orth, hcell⟩
          · intro hpre1
            rw [List.getD_cons_zero] at hpre1 ⊢
            rw [List.getD_cons_zero]
            exact cand_shapes_match (hN i _) (hV i) hpre1 hfrom
        | k + 1 =>
          rw [List.length_cons] at hk
          obtain ⟨h1, h2, h3⟩ := hprops k (by omega)
          have hsets : base ∪ unionShapes acc ∪ unionShapes ((cand :: nd).take (k + 1)) =
              base ∪ unionShapes (acc ++ [cand]) ∪ unionShapes (nd.take k) := by
            rw [List.take_succ_cons, unionShapes_cons, unionShapes_append,
              unionShapes_singleton]
            ext x
            simp only [Finset.mem_union]
            tauto
          rw [List.getD_cons_succ, List.getD_cons_succ, hsets]
          exact ⟨h1, h2, h3⟩


/-- C5: every dark layout produced by `generate_puzzle.py`'s
`place_darks_for_solution` from a light layout of preset-variant translates
(the only layouts the generator feeds it) has one dark piece per light
piece; dark pieces are pairwise cell-disjoint and disjoint from every
light piece; and each dark piece is congruent (`shapes_match`) to its
corresponding light piece and orthogonally borders it. -/
theorem C5_place_darks_invariants (gw gh : ℤ) (o : DarkOracle)
    (lit_pieces darks : List Shape)
    (hN : ∀ i l, (o.shufN i l).Perm l)
    (hV : ∀ i n l, (o.shufV i n l).Perm l)
    (hpre : ∀ lp ∈ lit_pieces, ∃ ns ∈ PRESET_SHAPES, ∃ v ∈ SHAPE_VARIANTS ns.1,
        ∃ tx ty : ℤ, lp = translate v tx ty)
    (h : place_darks_for_solution gw gh o lit_pieces = some darks) :
    darks.length = lit_pieces.length ∧
    (∀ i j, i < j → j < darks.length →
      darks.getD i ∅ ∩ darks.getD j ∅ = ∅) ∧
    (∀ d ∈ darks, ∀ lp ∈ lit_pieces, d ∩ lp = ∅) ∧
    (∀ k, k < darks.length →
      shapes_match (darks.getD k ∅) (lit_pieces.getD k ∅) ∧
      edgeAdjacent (darks.getD k ∅) (lit_pieces.getD k ∅)) := by
  unfold place_darks_for_solution at h
  have h' : placeDarksGo gw gh o lit_pieces 0 []
      (unionShapes lit_pieces ∪ unionShapes []) (unionShapes []) = some darks := by
    rw [unionShapes_nil, Finset.union_empty]
    exact h
  obtain ⟨nd, hout, hlen, hprops⟩ := placeDarksGo_sound gw gh o hN hV lit_pieces 0 []
    (unionShapes lit_pieces) darks h'
  rw [List.nil_append] at hout
  subst hout
  have hprops' : ∀ k, k < lit_pieces.length →
      (darks.getD k ∅) ∩ (unionShapes lit_pieces ∪ unionShapes (darks.take k)) = ∅ ∧
      edgeAdjacent (darks.getD k ∅) (lit_pieces.getD k ∅) ∧
      ((∃ ns ∈ PRESET_SHAPES, ∃ v ∈ SHAPE_VARIANTS ns.1, ∃ tx ty : ℤ,
          lit_pieces.getD k ∅ = translate v tx ty) →
        shapes_match (darks.getD k ∅) (lit_pieces.getD k ∅)) := by
    intro k hk
    have hk2 := hprops k hk
    rwa [unionShapes_nil, Finset.union_empty] at hk2
  refine ⟨hlen, ?_, ?_, ?_⟩
  · intro i j hij hj
    obtain ⟨hdisj, -, -⟩ := hprops' j (by omega)
    rw [Finset.eq_empty_iff_forall_not_mem]
    intro x hx
    rw [Finset.mem_inter] at hx
    have hx2 : x ∈ unionShapes lit_pieces ∪ unionShapes (darks.take j) :=
      Finset.mem_union_right _
        (mem_unionShapes.mpr ⟨darks.getD i ∅, getD_mem_take hij (by omega), hx.1⟩)
    have hmem := Finset.mem_inter.mpr ⟨hx.2, hx2⟩
    rw [hdisj] at hmem
    exact Finset.not_mem_empty x hmem
  · intro d hd lp hlp
    have hd' : d ∈ darks.take darks.length := by
      rw [List.take_length]
      exact hd
    obtain ⟨k, -, hk2, hk3⟩ := mem_take_shape hd'
    obtain ⟨hdisj, -, -⟩ := hprops' k (by omega)
    rw [Finset.eq_empty_iff_forall_not_mem]
    intro x hx
    rw [Finset.mem_inter] at hx
    have hx1 : x ∈ darks.getD k ∅ := by
      rw [hk3]
      exact hx.1
    have hx2 : x ∈ unionShapes lit_pieces ∪ unionShapes (darks.take k) :=
      Finset.mem_union_left _ (mem_unionShapes.mpr ⟨lp, hlp, hx.2⟩)
    have hmem := Finset.mem_inter.mpr ⟨hx1, hx2⟩
    rw [hdisj] at hmem
    exact Finset.not_mem_empty x hmem
  · intro k hk
    obtain ⟨-, hadj, hsm⟩ := hprops' k (by omega)
    exact ⟨hsm (hpre _ (getD_mem_self (by omega))), hadj⟩

/-- Witness for C5: on a 2 by 2 grid with a single monomino light piece at
the origin and no-op shuffles, the deriver returns the dark monomino at
(1,0), which matches and borders its light piece. -/
theorem C5_place_darks_invariants_witness :
    (([({((1 : ℤ), (0 : ℤ))} : Shape)] : List Shape).length =
      ([({((0 : ℤ), (0 : ℤ))} : Shape)] : List Shape).length) ∧
    (∀ k, k < ([({((1 : ℤ), (0 : ℤ))} : Shape)] : List Shape).length →
      shapes_match (([({((1 : ℤ), (0 : ℤ))} : Shape)] : List Shape).getD k ∅)
        (([({((0 : ℤ), (0 : ℤ))} : Shape)] : List Shape).getD k ∅) ∧
      edgeAdjacent (([({((1 : ℤ), (0 : ℤ))} : Shape)] : List Shape).getD k ∅)
        (([({((0 : ℤ), (0 : ℤ))} : Shape)] : List Shape).getD k ∅)) :=
  ⟨(C5_place_darks_invariants 2 2 idDarkOracle [{((0 : ℤ), (0 : ℤ))}]
      [{((1 : ℤ), (0 : ℤ))}] (fun _ l => List.Perm.refl l)
      (fun _ _ l => List.Perm.refl l)
      (fun lp hlp => ⟨("monomino", normalize {((0 : ℤ), (0 : ℤ))}), by decide,
        {((0 : ℤ), (0 : ℤ))}, by decide, 0, 0, by
          rw [List.mem_singleton] at hlp
          rw [hlp]
          decide⟩)
      (by decide)).1,
   (C5_place_darks_invariants 2 2 idDarkOracle [{((0 : ℤ), (0 : ℤ))}]
      [{((1 : ℤ), (0 : ℤ))}] (fun _ l => List.Perm.refl l)
      (fun _ _ l => List.Perm.refl l)
      (fun lp hlp => ⟨("monomino", normalize {((0 : ℤ), (0 : ℤ))}), by decide,
        {((0 : ℤ), (0 : ℤ))}, by decide, 0, 0, by
          rw [List.mem_singleton] at hlp
          rw [hlp]
          decide⟩)
      (by decide)).2.2.2⟩

/-- C9: the two source variants of the dark-layout deriver are not
extensionally equivalent: on a 4 by 1 grid with light monominoes at (0,0)
and (3,0) and no-op shuffles, `generate_puzzle.py`'s version (which rejects
candidates orthogonally adjacent to earlier dark cells) fails, while
`main.py`'s version (which has no such check) returns the dark monominoes
at (1,0) and (2,0). -/
theorem C9_dark_variants_disagree :
    place_darks_for_solution 4 1 idDarkOracle
        [({((0 : ℤ), (0 : ℤ))} : Shape), {((3 : ℤ), (0 : ℤ))}] = none ∧
    place_darks_for_solution_main 4 1 idDarkOracle
        [({((0 : ℤ), (0 : ℤ))} : Shape), {((3 : ℤ), (0 : ℤ))}] =
      some [({((1 : ℤ), (0 : ℤ))} : Shape), {((2 : ℤ), (0 : ℤ))}] ∧
    place_darks_for_solution 4 1 idDarkOracle
        [({((0 : ℤ), (0 : ℤ))} : Shape), {((3 : ℤ), (0 : ℤ))}] ≠
      place_darks_for_solution_main 4 1 idDarkOracle
        [({((0 : ℤ), (0 : ℤ))} : Shape), {((3 : ℤ), (0 : ℤ))}] := by
  decide


/-! ## `verify_solution` (the `/verify` handler in `main.py`)

The handler reads `user_pieces` (each a cell list with a label),
`selected_cells`, and the puzzle's `stars` and `dark_pieces`; the latter is
read but never used by any check. -/

structure UserPiece where
  cells : List Cell
  label : String

/-- The nested `is_orthogonal(c1, c2)` helper of the handler. -/
def is_orthogonal (c1 c2 : Cell) : Prop :=
  (|c1.1 - c2.1| = 1 ∧ c1.2 = c2.2) ∨ (|c1.2 - c2.2| = 1 ∧ c1.1 = c2.1)

instance is_orthogonal.dec (c1 c2 : Cell) : Decidable (is_orthogonal c1 c2) := by
  unfold is_orthogonal
  infer_instance

/-- The handler's corner test between two pieces: some cell pair at
diagonal distance (`dx == 1 and dy == 1`). -/
def cornerConnCells (p q : List Cell) : Prop :=
  ∃ c1 ∈ p, ∃ c2 ∈ q, |c1.1 - c2.1| = 1 ∧ |c1.2 - c2.2| = 1

instance cornerConnCells.dec (p q : List Cell) : Decidable (cornerConnCells p q) := by
  unfold cornerConnCells
  infer_instance

/-- Index-level adjacency scanned by the handler's BFS: for each popped
index it tests every index in `range(len(user_pieces))` in order. -/
def pieceAdjList (ups : List UserPiece) : List (List ℕ) :=
  (List.range ups.length).map fun cur =>
    (List.range ups.length).filter fun i =>
      decide (cornerConnCells ((ups.getD cur ⟨[], ""⟩).cells)
        ((ups.getD i ⟨[], ""⟩).cells))

/-- The index-level corner relation between user pieces. -/
def userCornerRel (ups : List UserPiece) (i j : ℕ) : Prop :=
  i < ups.length ∧ j < ups.length ∧
    cornerConnCells ((ups.getD i ⟨[], ""⟩).cells) ((ups.getD j ⟨[], ""⟩).cells)

/-- The `/verify` handler's success verdict: unplaced selected cells and an
empty layout fail; then all stars must be covered by user-piece cells, no
two pieces may contain an orthogonally adjacent cell pair, and (for more
than one piece) the FIFO corner-connectivity sweep from piece 0 must visit
every piece.  No check reads `dark_pieces` and none compares pieces for
overlap. -/
def verify_solution (stars : List Cell) (user_pieces : List UserPiece)
    (selected_cells : List Cell) : Bool :=
  if ¬ selected_cells = [] then false
  else if user_pieces.length = 0 then false
  else if ¬ ∀ star ∈ stars, star ∈ user_pieces.flatMap (fun p => p.cells) then false
  else if ∃ i ∈ List.range user_pieces.length, ∃ j ∈ List.range user_pieces.length,
      i < j ∧ ∃ c1 ∈ (user_pieces.getD i ⟨[], ""⟩).cells,
        ∃ c2 ∈ (user_pieces.getD j ⟨[], ""⟩).cells, is_orthogonal c1 c2 then false
  else if 1 < user_pieces.length then
    decide ((traverse (pieceAdjList user_pieces) true
        ((pieceAdjList user_pieces).length + 1) [0] (insert 0 ∅)).card =
      user_pieces.length)
  else true

lemma pieceAdjList_length (ups : List UserPiece) :
    (pieceAdjList ups).length = ups.length := by
  unfold pieceAdjList
  rw [List.length_map, List.length_range]

lemma pieceAdjList_nodup (ups : List UserPiece) : ∀ l ∈ pieceAdjList ups, l.Nodup := by
  intro l hl
  unfold pieceAdjList at hl
  rcases List.mem_map.mp hl with ⟨i, _, rfl⟩
  exact List.Nodup.filter _ (List.nodup_range _)

lemma pieceAdjList_sub (ups : List UserPiece) :
    ∀ l ∈ pieceAdjList ups, ∀ x ∈ l, x ∈ Finset.range ups.length := by
  intro l hl x hx
  unfold pieceAdjList at hl
  rcases List.mem_map.mp hl with ⟨i, _, rfl⟩
  rw [Finset.mem_range]
  exact List.mem_range.mp (List.mem_filter.mp hx).1

lemma mem_pieceAdjList {ups : List UserPiece} {i j : ℕ} :
    j ∈ (pieceAdjList ups).getD i [] ↔ userCornerRel ups i j := by
  unfold pieceAdjList userCornerRel
  by_cases hi : i < ups.length
  · rw [List.getD_eq_getElem?_getD, List.getElem?_map, List.getElem?_range hi]
    simp only [Option.map_some', Option.getD_some]
    rw [List.mem_filter, List.mem_range, decide_eq_true_eq]
    tauto
  · have hlen : (List.range ups.length).length ≤ i := by
      rw [List.length_range]
      omega
    rw [List.getD_eq_getElem?_getD, List.getElem?_map, List.getElem?_eq_none hlen]
    simp only [Option.map_none', Option.getD_none, List.not_mem_nil, false_iff]
    intro hc
    exact hi hc.1

lemma reach_pieceAdjList {ups : List UserPiece} {a b : ℕ} :
    Relation.ReflTransGen (stepRel (pieceAdjList ups)) a b ↔
      Relation.ReflTransGen (userCornerRel ups) a b := by
  constructor
  · exact Relation.ReflTransGen.mono (fun x y h => mem_pieceAdjList.mp h)
  · exact Relation.ReflTransGen.mono (fun x y h => mem_pieceAdjList.mpr h)

lemma bfs_card_iff {ups : List UserPiece} (hlen : 1 ≤ ups.length) :
    (traverse (pieceAdjList ups) true ((pieceAdjList ups).length + 1) [0]
        (insert 0 ∅)).card = ups.length ↔
      ∀ k < ups.length, Relation.ReflTransGen (stepRel (pieceAdjList ups)) 0 k := by
  set adjL := pieceAdjList ups with hadjL
  set r0 := traverse adjL true (adjL.length + 1) [0] (insert 0 ∅) with hr0
  have hsound : ∀ v ∈ r0, Relation.ReflTransGen (stepRel adjL) 0 v := by
    intro v hv
    rcases traverse_sound adjL true _ _ _ v hv with h | ⟨u, hu, hreach⟩
    · rcases Finset.mem_insert.mp h with rfl | h'
      · exact Relation.ReflTransGen.refl
      · simp at h'
    · rcases List.mem_singleton.mp hu with rfl
      exact hreach
  have hgetDsub : ∀ (u : ℕ), ∀ x ∈ adjL.getD u [], x ∈ Finset.range ups.length := by
    intro u x hx
    by_cases hu : u < adjL.length
    · rw [List.getD_eq_getElem?_getD, List.getElem?_eq_getElem hu] at hx
      exact pieceAdjList_sub ups _ (List.getElem_mem hu) x hx
    · rw [List.getD_eq_getElem?_getD, List.getElem?_eq_none (by omega)] at hx
      simp at hx
  have hsubr : r0 ⊆ Finset.range ups.length := by
    intro v hv
    rcases Relation.ReflTransGen.cases_tail (hsound v hv) with rfl | ⟨b, -, hb⟩
    · exact Finset.mem_range.mpr (by omega)
    · exact hgetDsub b v hb
  have hclosed : ∀ u ∈ r0, ∀ v ∈ adjL.getD u [], v ∈ r0 := by
    apply traverse_closed adjL true (Finset.range ups.length)
      (pieceAdjList_nodup ups) (pieceAdjList_sub ups)
    · intro u hu
      rcases List.mem_singleton.mp hu with rfl
      exact Finset.mem_insert_self 0 ∅
    · intro u hu
      rcases Finset.mem_insert.mp hu with rfl | h'
      · exact Or.inl (List.mem_singleton.mpr rfl)
      · simp at h'
    · have hcard : (Finset.range ups.length \ insert 0 ∅).card ≤ ups.length := by
        refine le_trans (Finset.card_le_card Finset.sdiff_subset) ?_
        rw [Finset.card_range]
      have hlen2 : adjL.length = ups.length := pieceAdjList_length ups
      simp only [List.length_singleton]
      omega
  have h0r0 : (0 : ℕ) ∈ r0 :=
    traverse_mono adjL true (adjL.length + 1) [0] (insert 0 ∅)
      (Finset.mem_insert_self 0 ∅)
  constructor
  · intro hcard k hk
    have hr0eq : r0 = Finset.range ups.length :=
      Finset.eq_of_subset_of_card_le hsubr (by rw [Finset.card_range, hcard])
    have hkr : k ∈ r0 := by
      rw [hr0eq]
      exact Finset.mem_range.mpr hk
    exact hsound k hkr
  · intro hall
    have hsup : Finset.range ups.length ⊆ r0 := by
      intro k hkr
      exact reach_subset_of_closed hclosed h0r0 (hall k (Finset.mem_range.mp hkr))
    have heq : r0 = Finset.range ups.length := Finset.Subset.antisymm hsubr hsup
    rw [heq, Finset.card_range]


lemma no_orth_pairs {ups : List UserPiece}
    (h : ¬ ∃ i ∈ List.range ups.length, ∃ j ∈ List.range ups.length,
        i < j ∧ ∃ c1 ∈ (ups.getD i ⟨[], ""⟩).cells,
          ∃ c2 ∈ (ups.getD j ⟨[], ""⟩).cells, is_orthogonal c1 c2) :
    ∀ i j, i < j → j < ups.length →
      ∀ c1 ∈ (ups.getD i ⟨[], ""⟩).cells, ∀ c2 ∈ (ups.getD j ⟨[], ""⟩).cells,
        ¬ is_orthogonal c1 c2 := by
  intro i j hij hj c1 hc1 c2 hc2 ho
  exact h ⟨i, List.mem_range.mpr (by omega), j, List.mem_range.mpr hj, hij,
    c1, hc1, c2, hc2, ho⟩

/-- C10: the `/verify` handler reports success iff there are no pending
selected cells, at least one user piece is placed, every star is covered
by some user-piece cell, no two user pieces contain an orthogonally
adjacent cell pair, and (when more than one piece is placed) every piece
is corner-reachable from piece 0 — piece overlap with other pieces or
with dark pieces is never checked, and a state whose two pieces share the
cell (2,2) still succeeds. -/
theorem C10_verify_characterization :
    (∀ (stars : List Cell) (ups : List UserPiece) (sel : List Cell),
      verify_solution stars ups sel = true ↔
        (sel = [] ∧ ups ≠ [] ∧
         (∀ star ∈ stars, star ∈ ups.flatMap (fun p => p.cells)) ∧
         (∀ i j, i < j → j < ups.length →
           ∀ c1 ∈ (ups.getD i ⟨[], ""⟩).cells, ∀ c2 ∈ (ups.getD j ⟨[], ""⟩).cells,
             ¬ is_orthogonal c1 c2) ∧
         (1 < ups.length → ∀ k < ups.length,
           Relation.ReflTransGen (userCornerRel ups) 0 k))) ∧
    (verify_solution [((1 : ℤ), (1 : ℤ))]
        [⟨[((1 : ℤ), (1 : ℤ)), ((2 : ℤ), (2 : ℤ))], "A"⟩,
         ⟨[((2 : ℤ), (2 : ℤ)), ((3 : ℤ), (3 : ℤ))], "B"⟩] [] = true ∧
     ((2 : ℤ), (2 : ℤ)) ∈ [((1 : ℤ), (1 : ℤ)), ((2 : ℤ), (2 : ℤ))] ∧
     ((2 : ℤ), (2 : ℤ)) ∈ [((2 : ℤ), (2 : ℤ)), ((3 : ℤ), (3 : ℤ))]) := by
  constructor
  · intro stars ups sel
    unfold verify_solution
    by_cases h1 : sel = []
    · rw [if_neg (not_not_intro h1)]
      by_cases h2 : ups.length = 0
      · rw [if_pos h2]
        constructor
        · intro hft
          exact absurd hft (by simp)
        · rintro ⟨-, hne, -⟩
          exact absurd (List.length_eq_zero.mp h2) hne
      · rw [if_neg h2]
        have hne : ups ≠ [] := fun he => h2 (by rw [he]; rfl)
        by_cases h3 : ∀ star ∈ stars, star ∈ ups.flatMap (fun p => p.cells)
        · rw [if_neg (not_not_intro h3)]
          by_cases h4 : ∃ i ∈ List.range ups.length, ∃ j ∈ List.range ups.length,
              i < j ∧ ∃ c1 ∈ (ups.getD i ⟨[], ""⟩).cells,
                ∃ c2 ∈ (ups.getD j ⟨[], ""⟩).cells, is_orthogonal c1 c2
          · rw [if_pos h4]
            constructor
            · intro hft
              exact absurd hft (by simp)
            · rintro ⟨-, -, -, hpair, -⟩
              obtain ⟨i, hi, j, hj, hij, c1, hc1, c2, hc2, ho⟩ := h4
              exact absurd ho (hpair i j hij (List.mem_range.mp hj) c1 hc1 c2 hc2)
          · rw [if_neg h4]
            by_cases h5 : 1 < ups.length
            · rw [if_pos h5]
              constructor
              · intro hcard
                rw [decide_eq_true_eq] at hcard
                exact ⟨h1, hne, h3, no_orth_pairs h4, fun _ k hk =>
                  reach_pieceAdjList.mp ((bfs_card_iff (by omega)).mp hcard k hk)⟩
              · rintro ⟨-, -, -, -, hconn⟩
                rw [decide_eq_true_eq]
                exact (bfs_card_iff (by omega)).mpr
                  (fun k hk => reach_pieceAdjList.mpr (hconn h5 k hk))
            · rw [if_neg h5]
              constructor
              · intro hft
                exact ⟨h1, hne, h3, no_orth_pairs h4, fun hgt => absurd hgt h5⟩
              · intro hrhs
                rfl
        · rw [if_pos h3]
          constructor
          · intro hft
            exact absurd hft (by simp)
          · rintro ⟨-, -, hcov, -⟩
            exact absurd hcov h3
    · rw [if_pos h1]
      constructor
      · intro hft
        exact absurd hft (by simp)
      · rintro ⟨hsel, -⟩
        exact absurd hsel h1
  · exact ⟨by decide, by decide, by decide⟩


/-! ## `generate_puzzles` / `generate_puzzle`

One `while` iteration draws a piece count, a light layout, a dark layout
and a star sample, all randomized; each iteration's random draws are
abstracted as one `GenTry` record, and the `max_tries` budget as the
length of the supplied try list. -/

structure GenPuzzle where
  grid_w : ℤ
  grid_h : ℤ
  lit_pieces : List Shape
  dark_pieces : List Shape
  stars : Finset Cell

structure GenTry where
  num : ℕ
  scripts : List AttemptScript
  darkO : DarkOracle
  starsPick : Finset Cell

/-- One iteration of the `while` loop: build the light layout (skip on
`None` or empty), derive the dark layout (skip likewise), sample stars,
solve with `max_solutions=2`, `max_nodes=20000`, and accept exactly when
the reported solution count is 1. -/
def genStep (gw gh : ℤ) (t : GenTry) : Option GenPuzzle :=
  match place_solution gw gh t.num t.scripts with
  | none => none
  | some lit =>
    if lit = [] then none
    else
      match place_darks_for_solution gw gh t.darkO lit with
      | none => none
      | some dark =>
        if dark = [] then none
        else if (solve_puzzle_fast gw gh dark t.starsPick 2 20000).1 = 1 then
          some ⟨gw, gh, lit, dark, t.starsPick⟩
        else none

/-- The `while len(puzzles)<count and tries<max_tries` loop. -/
def generate_puzzles_go (gw gh : ℤ) (count : ℕ) :
    List GenTry → List GenPuzzle → List GenPuzzle
  | [], acc => acc
  | t :: rest, acc =>
    if acc.length < count then
      match genStep gw gh t with
      | none => generate_puzzles_go gw gh count rest acc
      | some p => generate_puzzles_go gw gh count rest (acc ++ [p])
    else acc

def generate_puzzles (gw gh : ℤ) (count : ℕ) (tries : List GenTry) :
    List GenPuzzle :=
  generate_puzzles_go gw gh count tries []

/-- `generate_puzzle`: run `generate_puzzles` with `count=1` and surface an
empty result as `None`. -/
def generate_puzzle (gw gh : ℤ) (tries : List GenTry) : Option GenPuzzle :=
  match generate_puzzles gw gh 1 tries with
  | [] => none
  | p :: _ => some p

lemma genStep_spec (gw gh : ℤ) (t : GenTry) (p : GenPuzzle) :
    genStep gw gh t = some p ↔
      ∃ lit dark, place_solution gw gh t.num t.scripts = some lit ∧ lit ≠ [] ∧
        place_darks_for_solution gw gh t.darkO lit = some dark ∧ dark ≠ [] ∧
        (solve_puzzle_fast gw gh dark t.starsPick 2 20000).1 = 1 ∧
        p = ⟨gw, gh, lit, dark, t.starsPick⟩ := by
  constructor
  · intro h
    unfold genStep at h
    rcases hps : place_solution gw gh t.num t.scripts with _ | lit
    · rw [hps] at h
      exact Option.noConfusion h
    · rw [hps] at h
      dsimp only at h
      split at h
      · exact Option.noConfusion h
      · rcases hpd : place_darks_for_solution gw gh t.darkO lit with _ | dark
        · rw [hpd] at h
          exact Option.noConfusion h
        · rw [hpd] at h
          dsimp only at h
          split at h
          · exact Option.noConfusion h
          · split at h
            · obtain rfl := Option.some.inj h
              rename_i hlit hdark hsol
              exact ⟨lit, dark, rfl, hlit, hpd, hdark, hsol, rfl⟩
            · exact Option.noConfusion h
  · rintro ⟨lit, dark, hps, hlit, hpd, hdark, hsol, rfl⟩
    unfold genStep
    rw [hps]
    dsimp only
    rw [if_neg hlit, hpd]
    dsimp only
    rw [if_neg hdark, if_pos hsol]

lemma generate_puzzles_go_mem (gw gh : ℤ) (count : ℕ) :
    ∀ (tries : List GenTry) (acc : List GenPuzzle) (p : GenPuzzle),
      p ∈ generate_puzzles_go gw gh count tries acc →
      p ∈ acc ∨ ∃ t ∈ tries, genStep gw gh t = some p := by
  intro tries
  induction tries with
  | nil =>
    intro acc p h
    rw [generate_puzzles_go] at h
    exact Or.inl h
  | cons t rest ih =>
    intro acc p h
    rw [generate_puzzles_go] at h
    split at h
    · rcases hgs : genStep gw gh t with _ | q
      · rw [hgs] at h
        dsimp only at h
        rcases ih _ _ h with h' | ⟨t', ht', hq⟩
        · exact Or.inl h'
        · exact Or.inr ⟨t', List.mem_cons_of_mem _ ht', hq⟩
      · rw [hgs] at h
        dsimp only at h
        rcases ih _ _ h with h' | ⟨t', ht', hq⟩
        · rcases List.mem_append.mp h' with h'' | h''
          · exact Or.inl h''
          · obtain rfl := List.mem_singleton.mp h''
            exact Or.inr ⟨t, List.mem_cons_self _ _, hgs⟩
        · exact Or.inr ⟨t', List.mem_cons_of_mem _ ht', hq⟩
    · exact Or.inl h

lemma generate_puzzles_go_len (gw gh : ℤ) (count : ℕ) :
    ∀ (tries : List GenTry) (acc : List GenPuzzle),
      acc.length ≤ (generate_puzzles_go gw gh count tries acc).length := by
  intro tries
  induction tries with
  | nil =>
    intro acc
    rw [generate_puzzles_go]
  | cons t rest ih =>
    intro acc
    rw [generate_puzzles_go]
    split
    · rcases hgs : genStep gw gh t with _ | q
      · dsimp only
        exact ih acc
      · dsimp only
        refine le_trans ?_ (ih (acc ++ [q]))
        rw [List.length_append, List.length_singleton]
        omega
    · exact le_refl _

lemma generate_puzzles_go_nil_iff (gw gh : ℤ) (count : ℕ) (hc : 0 < count) :
    ∀ (tries : List GenTry),
      (generate_puzzles_go gw gh count tries [] = [] ↔
        ∀ t ∈ tries, genStep gw gh t = none) := by
  intro tries
  induction tries with
  | nil => simp [generate_puzzles_go]
  | cons t rest ih =>
    rw [generate_puzzles_go]
    rw [if_pos (by simpa using hc)]
    rcases hgs : genStep gw gh t with _ | q
    · dsimp only
      rw [ih]
      constructor
      · intro hall t' ht'
        rcases List.mem_cons.mp ht' with rfl | h'
        · exact hgs
        · exact hall t' h'
      · intro hall t' ht'
        exact hall t' (List.mem_cons_of_mem _ ht')
    · dsimp only
      constructor
      · intro hres
        have hlen := generate_puzzles_go_len gw gh count rest ([] ++ [q])
        rw [hres] at hlen
        simp at hlen
      · intro hall
        have hq := hall t (List.mem_cons_self _ _)
        rw [hgs] at hq
        exact Option.noConfusion hq

/-- C1: one generator attempt is accepted iff its light layout, dark layout
and star pick make the solver (run with `max_solutions=2`,
`max_nodes=20000`) report exactly 1 solution; every returned puzzle stems
from an accepted attempt, and re-running the solver on its `dark_pieces`
and `stars` with `max_solutions=2` again reports exactly 1; the generator
returns no puzzle iff every attempt in the try budget is rejected, and
`generate_puzzle` surfaces that empty result as `None`. -/
theorem C1_generator_accepts_unique :
    (∀ (gw gh : ℤ) (t : GenTry) (p : GenPuzzle),
      genStep gw gh t = some p ↔
        ∃ lit dark, place_solution gw gh t.num t.scripts = some lit ∧ lit ≠ [] ∧
          place_darks_for_solution gw gh t.darkO lit = some dark ∧ dark ≠ [] ∧
          (solve_puzzle_fast gw gh dark t.starsPick 2 20000).1 = 1 ∧
          p = ⟨gw, gh, lit, dark, t.starsPick⟩) ∧
    (∀ (gw gh : ℤ) (count : ℕ) (tries : List GenTry),
      ∀ p ∈ generate_puzzles gw gh count tries,
        (∃ t ∈ tries, genStep gw gh t = some p) ∧
        (solve_puzzle_fast gw gh p.dark_pieces p.stars 2 20000).1 = 1) ∧
    (∀ (gw gh : ℤ) (count : ℕ) (tries : List GenTry), 0 < count →
      (generate_puzzles gw gh count tries = [] ↔
        ∀ t ∈ tries, genStep gw gh t = none)) ∧
    (∀ (gw gh : ℤ) (tries : List GenTry),
      generate_puzzle gw gh tries = none ↔ generate_puzzles gw gh 1 tries = []) := by
  refine ⟨genStep_spec, ?_, ?_, ?_⟩
  · intro gw gh count tries p hp
    unfold generate_puzzles at hp
    rcases generate_puzzles_go_mem gw gh count tries [] p hp with h | ⟨t, ht, hgs⟩
    · exact absurd h (List.not_mem_nil p)
    · obtain ⟨lit, dark, hps, hlit, hpd, hdark, hsol, hp'⟩ :=
        (genStep_spec gw gh t p).mp hgs
      subst hp'
      exact ⟨⟨t, ht, hgs⟩, hsol⟩
  · intro gw gh count tries hc
    unfold generate_puzzles
    exact generate_puzzles_go_nil_iff gw gh count hc tries
  · intro gw gh tries
    unfold generate_puzzle
    rcases hg : generate_puzzles gw gh 1 tries with _ | ⟨p, ps⟩
    · simp
    · dsimp only
      constructor
      · intro h
        exact Option.noConfusion h
      · intro h
        exact List.noConfusion h

/-- Witness for C1 at a concrete call: one try on a 2 by 2 grid, with the
positive `count` hypothesis discharged at `count = 1`. -/
theorem C1_generator_accepts_unique_witness :
    (0 : ℕ) < 1 ∧
    (generate_puzzles 2 2 1
        [⟨1, [⟨{((0 : ℤ), (0 : ℤ))}, 0, 0, []⟩], idDarkOracle,
          {((0 : ℤ), (0 : ℤ))}⟩] = [] ↔
      ∀ t ∈ [(⟨1, [⟨{((0 : ℤ), (0 : ℤ))}, 0, 0, []⟩], idDarkOracle,
          {((0 : ℤ), (0 : ℤ))}⟩ : GenTry)], genStep 2 2 t = none) :=
  ⟨by decide,
   C1_generator_accepts_unique.2.2.1 2 2 1
     [⟨1, [⟨{((0 : ℤ), (0 : ℤ))}, 0, 0, []⟩], idDarkOracle,
       {((0 : ℤ), (0 : ℤ))}⟩] (by decide)⟩

end Twin
